import Mathlib

/-!
Verification development for the requirement-decomposition pipeline
(`requirement_decomposer.py`, `evaluater.py`, `tools/extractor.py`,
`tools/metrics.py`).  Python strings are modelled as `List Char`; the
external LLM endpoint is modelled as a stream of per-call responses; the
external `json.loads` used on LLM responses is modelled as an arbitrary
parse function passed explicitly.  File writing is modelled by the text
produced, and reading a written file back is modelled by an executable
JSON parser defined below.
-/

namespace RD

/-- Python strings, modelled as lists of characters. -/
abbrev Str := List Char

/-- Shorthand turning a Lean string literal into the model representation. -/
def lc (s : String) : Str := s.toList

/-- The whitespace characters recognised both by Python's `str.strip` and by
the regex class `\s` (restricted to the common ASCII whitespace). -/
def wsChar (c : Char) : Bool := c = ' ' || c = '\t' || c = '\n' || c = '\r'

/-- Python `str.strip()`: remove leading and trailing whitespace. -/
def stripL (s : Str) : Str :=
  ((s.dropWhile wsChar).reverse.dropWhile wsChar).reverse

/-- Python `' '.join(xs)`. -/
def joinSp : List Str → Str
  | [] => []
  | [s] => s
  | s :: rest => s ++ ' ' :: joinSp rest

/-- JSON values (as produced by Python's `json` module for the data handled
by this pipeline; floats never occur in it). -/
inductive Json where
  | str (s : Str)
  | num (n : Int)
  | bool (b : Bool)
  | null
  | arr (elems : List Json)
  | obj (fields : List (Str × Json))

/- ===== extractor.py: extract_content (lines 29-61) =====

`extract_content(text, field_name)` searches `text` with the regex
`【field】\s*(.*?)\s*(?=【|\Z)` under `re.DOTALL` and returns
`match.group(1).strip()`, or `None` when there is no match.  Since the part
after the literal marker always matches (the lazy group can extend to the
end of the string, where `\Z` holds), `re.search` succeeds exactly when the
literal marker `【field】` occurs, at its first occurrence.  The greedy
`\s*` after the marker, the lazy group stopped by `\s*(?=【|\Z)` and the
final `.strip()` together yield the text from the end of the marker up to
the next `【` (or the end of the string), stripped of leading and trailing
whitespace. -/

/-- The literal marker `【field】`. -/
def marker (field : Str) : Str := '【' :: field ++ ['】']

/-- Suffix of `s` after the first occurrence of `pat` (`none` when `pat`
does not occur): the position where `re.search` anchors the match. -/
def dropAfterFirst (pat : Str) (s : Str) : Option Str :=
  if pat.isPrefixOf s then some (s.drop pat.length)
  else
    match s with
    | [] => none
    | _ :: t => dropAfterFirst pat t

/-- `extract_content(text, field)` from `tools/extractor.py`. -/
def extract_content (text field : Str) : Option Str :=
  (dropAfterFirst (marker field) text).map
    (fun rest => stripL (rest.takeWhile (fun c => c ≠ '【')))

/- ===== extractor.py: extract_descriptions_from_list / process_json_file
   (lines 63-102) ===== -/

/-- One element of a `decomposed_list` as seen by
`extract_descriptions_from_list`: the code only reads the `description`
key, which may be absent (`none`) or hold a string. -/
structure DItem where
  description : Option Str
deriving DecidableEq

/-- `extract_descriptions_from_list` (extractor.py lines 63-73): keep, in
iteration order, the `extract_content(description, "需求描述")` result of
every entry whose `description` key is present and truthy, whenever that
result is itself truthy (not `None` and non-empty). -/
def extract_descriptions_from_list : List DItem → List Str
  | [] => []
  | req :: rest =>
    let tail := extract_descriptions_from_list rest
    match req.description with
    | some d =>
      if d = [] then tail
      else
        match extract_content d (lc "需求描述") with
        | some c => if c = [] then tail else c :: tail
        | none => tail
    | none => tail

/-- The per-entry extraction that `extract_descriptions_from_list` performs,
stated as a partial map usable with `List.filterMap`. -/
def extractOne (it : DItem) : Option Str :=
  match it.description with
  | some d =>
    if d = [] then none
    else
      match extract_content d (lc "需求描述") with
      | some c => if c = [] then none else some c
      | none => none
  | none => none

/-- One element of the decomposition-output array as read by
`process_json_file`: the code reads `row_number` and `decomposed_list` with
`.get`, so each may be absent. -/
structure DRec where
  row_number : Option Int
  decomposed_list : Option (List DItem)
deriving DecidableEq

/-- A metric record `{row, concatenated, description_count}`. -/
structure MetricRec where
  row : Int
  concatenated : Str
  description_count : Nat
deriving DecidableEq

/-- The per-record body of `process_json_file` (extractor.py lines 86-100):
records whose `row_number` or `decomposed_list` is absent or falsy are
skipped; otherwise the extracted descriptions are space-joined and
counted. -/
def metricOfRec (item : DRec) : Option MetricRec :=
  match item.row_number, item.decomposed_list with
  | some n, some l =>
    if n = 0 ∨ l = [] then none
    else
      let ds := extract_descriptions_from_list l
      some ⟨n, joinSp ds, ds.length⟩
  | _, _ => none

/-- `process_json_file` (extractor.py lines 75-102), applied to the decoded
JSON data of the input file. -/
def process_json_data (data : List DRec) : List MetricRec :=
  data.filterMap metricOfRec

/- ===== requirement_decomposer.py: decompose_requirement (214-241),
   evaluater.py: evaluate_decomposition (131-159) =====

Each function issues exactly one `await _call_llm_api(...)`; the external
endpoint is modelled as a stream of responses, one consumed per call
(`_call_llm_api` returns `None` on any of its failure branches, otherwise
the raw response string).  `json.loads` is external and modelled by an
arbitrary `parse : Str → Option Json` (`none` models a raised
`JSONDecodeError`). -/

/-- One call to `_call_llm_api`: consume the next response of the stream. -/
def consume (stream : List (Option Str)) : Option Str × List (Option Str) :=
  match stream with
  | [] => (none, [])
  | r :: rest => (r, rest)

/-- `decompose_requirement` (requirement_decomposer.py lines 214-241):
one API call; `if not llm_response_str: return None`; then `json.loads`,
returning the parsed value only when it is a list, `None` otherwise.  The
second component is the stream left for later calls. -/
def decompose_requirement (parse : Str → Option Json)
    (stream : List (Option Str)) : Option (List Json) × List (Option Str) :=
  match consume stream with
  | (none, rest) => (none, rest)
  | (some s, rest) =>
    if s = [] then (none, rest)
    else
      match parse s with
      | some (Json.arr xs) => (some xs, rest)
      | some _ => (none, rest)
      | none => (none, rest)

/-- `evaluate_decomposition` (evaluater.py lines 131-159): one API call;
`if not llm_response_str: return None`; then `json.loads`, returning
whatever value was parsed — the code performs no check on its shape. -/
def evaluate_decomposition (parse : Str → Option Json)
    (stream : List (Option Str)) : Option Json × List (Option Str) :=
  match consume stream with
  | (none, rest) => (none, rest)
  | (some s, rest) =>
    if s = [] then (none, rest)
    else
      match parse s with
      | some v => (some v, rest)
      | none => (none, rest)

/- ===== requirement_decomposer.py: main (lines 264-336), batch driver ===== -/

/-- One input record of `data.json` as accessed by `main` via
`req_item.get("row")` / `req_item.get("req")`: either key may be absent. -/
structure ReqItem where
  row : Option Int
  req : Option Str
deriving DecidableEq

/-- One element of `all_decomposed_results`. -/
structure OutRec where
  row_number : Int
  decomposed_list : List Json

/-- The row loop of `main` (requirement_decomposer.py lines 299-329).
`if not row_num or not main_requirement: continue` skips records whose
`row` is absent or `0` or whose `req` is absent or empty (Python
truthiness).  For each remaining row one `decompose_requirement` call is
made (consuming one response of the stream); its result is appended only
when truthy (`if decomposed_list:`), i.e. not `None` and non-empty. -/
def decomposerMain : List ReqItem → List (Option (List Json)) → List OutRec
  | [], _ => []
  | it :: rest, stream =>
    match it.row, it.req with
    | some n, some q =>
      if n = 0 ∨ q = [] then decomposerMain rest stream
      else
        match stream with
        | [] => decomposerMain rest []
        | resp :: stream' =>
          match resp with
          | some l =>
            if l.isEmpty then decomposerMain rest stream'
            else ⟨n, l⟩ :: decomposerMain rest stream'
          | none => decomposerMain rest stream'
    | _, _ => decomposerMain rest stream

/- ===== tools/metrics.py: alignment loop (lines 34-47) ===== -/

/-- Python dict lookup on a row→text mapping, modelled as an insertion-ordered
association list. -/
def lookupRow (m : List (Int × Str)) (r : Int) : Option Str :=
  match m with
  | [] => none
  | (k, v) :: rest => if k = r then some v else lookupRow rest r

/-- The three aligned lists built by the loop, plus the messages printed
inside the loop body.  The loop body (metrics.py lines 38-42) contains no
print call, so `skip_logs` is never extended. -/
structure AlignState where
  predictions_raw : List Str
  references_raw : List Str
  rows : List Int
  skip_logs : List Str
deriving DecidableEq

/-- The alignment loop of `tools/metrics.py` (lines 34-42): iterate the
prediction map in insertion order and keep exactly the rows whose key also
occurs in the reference map. -/
def alignData : List (Int × Str) → List (Int × Str) → AlignState
  | [], _ => ⟨[], [], [], []⟩
  | (row, ptext) :: rest, refs =>
    let st := alignData rest refs
    match lookupRow refs row with
    | some rtext =>
      ⟨ptext :: st.predictions_raw, rtext :: st.references_raw,
       row :: st.rows, st.skip_logs⟩
    | none => st

/- ===== tools/extractor.py: get_requirement_from_excel (lines 104-157) ===== -/

/-- The value held by a spreadsheet cell as seen through openpyxl:
`empty` is a cell whose `.value` is `None` (including any in-range cell
that was never written), `str` a string value, `other` any non-string
non-`None` value. -/
inductive CellVal where
  | empty
  | str (s : Str)
  | other
deriving DecidableEq

/-- The active worksheet of a loaded workbook: its stored rows of cells. -/
structure Sheet where
  rows : List (List CellVal)
deriving DecidableEq

/-- openpyxl `Worksheet.max_row` (at least 1 even for an empty sheet). -/
def Sheet.maxRow (sh : Sheet) : Nat := max sh.rows.length 1

/-- `sheet[1]`: the header row. -/
def Sheet.headerRow (sh : Sheet) : List CellVal := sh.rows.headD []

/-- `sheet.cell(row=r, column=c).value` with 1-based indices; any cell not
stored reads as `None`. -/
def Sheet.cellAt (sh : Sheet) (r c : Nat) : CellVal :=
  (sh.rows.getD (r - 1) []).getD (c - 1) CellVal.empty

/-- `header.index(column_name)`: first 0-based index of a header cell whose
value is exactly the string `name` (`None` models the `ValueError`). -/
def findHeaderIdx (header : List CellVal) (name : Str) : Option Nat :=
  header.findIdx? (fun cell => cell = CellVal.str name)

/-- `get_requirement_from_excel` (extractor.py lines 104-157) with the
default `sheet_name=None`.  The workbook argument is `none` when
`load_workbook` raises (missing file, invalid format, or any other
exception), which the code turns into `None`.  An in-range cell holding a
truthy string is returned stripped; an empty-string, `None`-valued or
non-string cell yields `None`. -/
def get_requirement_from_excel (wb : Option Sheet) (column_name : Str)
    (row_number : Int) : Option Str :=
  match wb with
  | none => none
  | some sh =>
    match findHeaderIdx sh.headerRow column_name with
    | none => none
    | some i =>
      if 1 ≤ row_number ∧ row_number ≤ (sh.maxRow : Int) then
        match sh.cellAt row_number.toNat (i + 1) with
        | CellVal.str s => if s = [] then none else some (stripL s)
        | _ => none
      else none

/- ===== tools/extractor.py: process_excel_file (lines 159-195) ===== -/

/-- Truthiness of an `Optional[str]` value (`None` and `""` are falsy). -/
def truthyOptStr : Option Str → Bool
  | some s => !s.isEmpty
  | none => false

/-- One grouped block `{row, concatenated, description_count}` emitted by
`process_excel_file`. -/
structure Block where
  row : Int
  concatenated : Str
  description_count : Nat
deriving DecidableEq

/-- Python `' '.join(descriptions)` where the list may contain `None`
entries (the result of `extract_content` on marker-less text): joining a
list containing `None` raises a `TypeError`, modelled as `Except.error`. -/
def joinSpOpt (l : List (Option Str)) : Except Unit Str :=
  if l.all Option.isSome then Except.ok (joinSp (l.filterMap id))
  else Except.error ()

/-- `extract_content` applied to the result of `get_requirement_from_excel`:
applying `re.search` to `None` raises a `TypeError`, modelled as
`Except.error`. -/
def extract_content_py (t : Option Str) (field : Str) :
    Except Unit (Option Str) :=
  match t with
  | none => Except.error ()
  | some s => Except.ok (extract_content s field)

/-- The loop body state of `process_excel_file` (extractor.py lines
164-187) followed by the final append (lines 189-194): `descs` is the
running `descriptions` list, `last` the running `last_row_num`, `acc` the
`results` collected so far. -/
def pefLoop (wb : Option Sheet) :
    List Int → List (Option Str) → Int → List Block → Except Unit (List Block)
  | [], descs, last, acc =>
    match joinSpOpt descs with
    | Except.error e => Except.error e
    | Except.ok c => Except.ok (acc ++ [⟨last, c, descs.length⟩])
  | r :: rs, descs, last, acc =>
    match (if truthyOptStr (get_requirement_from_excel wb (lc "L1华为格式") r) then
             match joinSpOpt descs with
             | Except.error e => Except.error e
             | Except.ok c =>
               Except.ok (([] : List (Option Str)), r,
                          acc ++ [(⟨last, c, descs.length⟩ : Block)])
           else Except.ok (descs, last, acc)) with
    | Except.error e => Except.error e
    | Except.ok st =>
      match extract_content_py
          (get_requirement_from_excel wb (lc "L2华为格式") r) (lc "需求描述") with
      | Except.error e => Except.error e
      | Except.ok e => pefLoop wb rs (st.1 ++ [e]) st.2.1 st.2.2

/-- Python `range(2, row_end)` over the scanned row numbers. -/
def rangeRows (row_end : Int) : List Int :=
  ((List.range row_end.toNat).drop 2).map Int.ofNat

/-- `process_excel_file` (extractor.py lines 159-195); the workbook read by
both `get_requirement_from_excel` calls is `wb`. -/
def process_excel_file (wb : Option Sheet) (row_end : Int) :
    Except Unit (List Block) :=
  pefLoop wb (rangeRows row_end) [] 0 []

/- ===== requirement_decomposer.py: save_results_to_json (lines 243-262) =====

`json.dump(results, f, ensure_ascii=False, indent=2)` serialises the
result list with two-space indentation, `", "`-free item separators
(`','` followed by a newline and indentation) and `": "` key separators;
strings are written with the standard JSON escapes (`\"`, `\\`, `\n`,
`\t`, `\r`, `\b`, `\f`, and `\u00xx` for the remaining control
characters; `ensure_ascii=False` writes all other characters
literally). -/

/-- Decimal digit character. -/
def digitChar (d : Nat) : Char := (lc "0123456789").getD d '0'

/-- Lowercase hexadecimal digit character (as used by `\u00xx`). -/
def hexChar (d : Nat) : Char := (lc "0123456789abcdef").getD d '0'

/-- The escape sequence `json.dump` (with `ensure_ascii=False`) emits for
one character of a string. -/
def escChar (c : Char) : Str :=
  if c = '"' then ['\\', '"']
  else if c = '\\' then ['\\', '\\']
  else if c = '\n' then ['\\', 'n']
  else if c = '\t' then ['\\', 't']
  else if c = '\r' then ['\\', 'r']
  else if c.toNat = 8 then ['\\', 'b']
  else if c.toNat = 12 then ['\\', 'f']
  else if c.toNat < 32 then
    ['\\', 'u', '0', '0', hexChar (c.toNat / 16), hexChar (c.toNat % 16)]
  else [c]

/-- The escaped body of a JSON string literal. -/
def escapeStr : Str → Str
  | [] => []
  | c :: rest => escChar c ++ escapeStr rest

/-- Decimal rendering of a natural number. -/
def renderNat (n : Nat) : Str :=
  if _h : n < 10 then [digitChar n]
  else renderNat (n / 10) ++ [digitChar (n % 10)]
decreasing_by exact Nat.div_lt_self (by omega) (by omega)

/-- Decimal rendering of a Python integer. -/
def renderInt (n : Int) : Str :=
  if n < 0 then '-' :: renderNat (-n).toNat else renderNat n.toNat

/-- `indent=2` indentation at nesting level `l`. -/
def indentStr (l : Nat) : Str := List.replicate (2 * l) ' '

mutual
/-- The exact text `json.dump(v, ensure_ascii=False, indent=2)` writes for
a value at nesting level `l`. -/
def renderJson : Json → Nat → Str
  | Json.str s, _ => '"' :: escapeStr s ++ ['"']
  | Json.num n, _ => renderInt n
  | Json.bool true, _ => lc "true"
  | Json.bool false, _ => lc "false"
  | Json.null, _ => lc "null"
  | Json.arr [], _ => ['[', ']']
  | Json.arr (x :: xs), l =>
    '[' :: ('\n' :: indentStr (l + 1) ++ renderJson x (l + 1))
      ++ renderArrTail xs (l + 1) ++ '\n' :: indentStr l ++ [']']
  | Json.obj [], _ => ['{', '}']
  | Json.obj (kv :: kvs), l =>
    '{' :: ('\n' :: indentStr (l + 1) ++ renderKV kv (l + 1))
      ++ renderObjTail kvs (l + 1) ++ '\n' :: indentStr l ++ ['}']

/-- One `"key": value` member. -/
def renderKV : Str × Json → Nat → Str
  | (k, v), l => '"' :: escapeStr k ++ '"' :: ':' :: ' ' :: renderJson v l

/-- The remaining array items, each preceded by `,` and a fresh line. -/
def renderArrTail : List Json → Nat → Str
  | [], _ => []
  | x :: xs, l => ',' :: '\n' :: indentStr l ++ renderJson x l ++ renderArrTail xs l

/-- The remaining object members, each preceded by `,` and a fresh line. -/
def renderObjTail : List (Str × Json) → Nat → Str
  | [], _ => []
  | kv :: kvs, l => ',' :: '\n' :: indentStr l ++ renderKV kv l ++ renderObjTail kvs l
end

/- ===== An executable JSON parser (modelling `json.load` on the written
   file for the round-trip property) ===== -/

/-- Drop leading JSON whitespace. -/
def skipWs (s : Str) : Str := s.dropWhile wsChar

/-- ASCII decimal digit test. -/
def isDigitCh (c : Char) : Bool := 48 ≤ c.toNat && c.toNat ≤ 57

/-- Consume a maximal run of digits, accumulating their value. -/
def parseDigits : Str → Nat → Nat × Str
  | c :: rest, acc =>
    if isDigitCh c then parseDigits rest (acc * 10 + (c.toNat - 48))
    else (acc, c :: rest)
  | [], acc => (acc, [])

/-- After an integer's digits, a `.` or exponent would start a float,
which this pipeline's data never contains. -/
def noFloatNext : Str → Bool
  | [] => true
  | c :: _ => !(c = '.' || c = 'e' || c = 'E')

/-- Parse a natural-number token beginning with `c`. -/
def parseNatTok (c : Char) (rest : Str) : Option (Nat × Str) :=
  if isDigitCh c then
    if noFloatNext (parseDigits (c :: rest) 0).2 then
      some ((parseDigits (c :: rest) 0).1, (parseDigits (c :: rest) 0).2)
    else none
  else none

/-- Parse a (possibly negative) JSON integer token. -/
def parseIntTok : Str → Option (Int × Str)
  | [] => none
  | c :: rest =>
    if c = '-' then
      match rest with
      | [] => none
      | c2 :: rest2 => (parseNatTok c2 rest2).map (fun p => (-(p.1 : Int), p.2))
    else (parseNatTok c rest).map (fun p => ((p.1 : Int), p.2))

/-- Value of one hexadecimal digit character. -/
def hexVal (c : Char) : Option Nat :=
  if 48 ≤ c.toNat ∧ c.toNat ≤ 57 then some (c.toNat - 48)
  else if 97 ≤ c.toNat ∧ c.toNat ≤ 102 then some (c.toNat - 87)
  else if 65 ≤ c.toNat ∧ c.toNat ≤ 70 then some (c.toNat - 55)
  else none

/-- Value of a four-digit hexadecimal escape `\uXXXX`. -/
def hexVal4 (a b c d : Char) : Option Nat :=
  match hexVal a, hexVal b, hexVal c, hexVal d with
  | some x, some y, some z, some w => some (((x * 16 + y) * 16 + z) * 16 + w)
  | _, _, _, _ => none

/-- Parse the body of a JSON string literal (after the opening quote) up
to and including the closing quote, undoing the standard escapes. -/
def parseStringBody : Str → Option (Str × Str)
  | [] => none
  | c :: rest =>
    if c = '"' then some ([], rest)
    else if c = '\\' then
      match rest with
      | [] => none
      | e :: rest2 =>
        if e = '"' then (parseStringBody rest2).map (fun p => ('"' :: p.1, p.2))
        else if e = '\\' then (parseStringBody rest2).map (fun p => ('\\' :: p.1, p.2))
        else if e = '/' then (parseStringBody rest2).map (fun p => ('/' :: p.1, p.2))
        else if e = 'n' then (parseStringBody rest2).map (fun p => ('\n' :: p.1, p.2))
        else if e = 't' then (parseStringBody rest2).map (fun p => ('\t' :: p.1, p.2))
        else if e = 'r' then (parseStringBody rest2).map (fun p => ('\r' :: p.1, p.2))
        else if e = 'b' then (parseStringBody rest2).map (fun p => (Char.ofNat 8 :: p.1, p.2))
        else if e = 'f' then (parseStringBody rest2).map (fun p => (Char.ofNat 12 :: p.1, p.2))
        else if e = 'u' then
          match rest2 with
          | h1 :: h2 :: h3 :: h4 :: rest3 =>
            match hexVal4 h1 h2 h3 h4 with
            | some n =>
              if n.isValidChar then
                (parseStringBody rest3).map (fun p => (Char.ofNat n :: p.1, p.2))
              else none
            | none => none
          | _ => none
        else none
    else if c.toNat < 32 then none
    else (parseStringBody rest).map (fun p => (c :: p.1, p.2))

mutual
/-- Recursive-descent JSON value parser; `fuel` bounds the recursion depth
and is always sufficient when at least the input length plus one. -/
def parseVal : Nat → Str → Option (Json × Str)
  | 0, _ => none
  | fuel + 1, s =>
    match skipWs s with
    | [] => none
    | c :: rest =>
      if c = '"' then (parseStringBody rest).map (fun p => (Json.str p.1, p.2))
      else if c = '[' then
        match skipWs rest with
        | [] => none
        | c2 :: r1 =>
          if c2 = ']' then some (Json.arr [], r1)
          else (parseArrItems fuel (c2 :: r1)).map (fun p => (Json.arr p.1, p.2))
      else if c = '{' then
        match skipWs rest with
        | [] => none
        | c2 :: r1 =>
          if c2 = '}' then some (Json.obj [], r1)
          else (parseObjItems fuel (c2 :: r1)).map (fun p => (Json.obj p.1, p.2))
      else if c = 't' then
        match rest with
        | 'r' :: 'u' :: 'e' :: r => some (Json.bool true, r)
        | _ => none
      else if c = 'f' then
        match rest with
        | 'a' :: 'l' :: 's' :: 'e' :: r => some (Json.bool false, r)
        | _ => none
      else if c = 'n' then
        match rest with
        | 'u' :: 'l' :: 'l' :: r => some (Json.null, r)
        | _ => none
      else (parseIntTok (c :: rest)).map (fun p => (Json.num p.1, p.2))

/-- Parse the items of a non-empty array, up to and including `]`. -/
def parseArrItems : Nat → Str → Option (List Json × Str)
  | 0, _ => none
  | fuel + 1, s =>
    match parseVal fuel s with
    | none => none
    | some (v, r) =>
      match skipWs r with
      | [] => none
      | c2 :: r2 =>
        if c2 = ',' then (parseArrItems fuel r2).map (fun p => (v :: p.1, p.2))
        else if c2 = ']' then some ([v], r2)
        else none

/-- Parse the members of a non-empty object, up to and including `}`. -/
def parseObjItems : Nat → Str → Option (List (Str × Json) × Str)
  | 0, _ => none
  | fuel + 1, s =>
    match skipWs s with
    | [] => none
    | c0 :: r0 =>
      if c0 = '"' then
        match parseStringBody r0 with
        | none => none
        | some (k, r1) =>
          match skipWs r1 with
          | [] => none
          | c1 :: r2 =>
            if c1 = ':' then
              match parseVal fuel r2 with
              | none => none
              | some (v, r3) =>
                match skipWs r3 with
                | [] => none
                | c2 :: r4 =>
                  if c2 = ',' then
                    (parseObjItems fuel r4).map (fun p => ((k, v) :: p.1, p.2))
                  else if c2 = '}' then some ([(k, v)], r4)
                  else none
            else none
      else none
end

/-- Parse a complete JSON document (one value, optionally surrounded by
whitespace). -/
def parseJson (s : Str) : Option Json :=
  match parseVal (s.length + 1) s with
  | some (v, rest) => if skipWs rest = [] then some v else none
  | none => none

mutual
/-- Fuel sufficient to parse a rendered value (one unit per value node and
per container item). -/
def fuelFor : Json → Nat
  | Json.arr xs => 1 + fuelItems xs
  | Json.obj kvs => 1 + fuelKVs kvs
  | _ => 1

def fuelItems : List Json → Nat
  | [] => 0
  | x :: xs => 1 + fuelFor x + fuelItems xs

def fuelKVs : List (Str × Json) → Nat
  | [] => 0
  | kv :: kvs => 1 + fuelFor kv.2 + fuelKVs kvs
end

/- ===== The decomposition-result data model and its JSON encoding ===== -/

/-- One sub-requirement `{id, description}`. -/
structure SubReq where
  id : Str
  description : Str
deriving DecidableEq

/-- One decomposition result `{row_number, decomposed_list}`. -/
structure DecompResult where
  row_number : Int
  decomposed_list : List SubReq
deriving DecidableEq

/-- The JSON value a sub-requirement record denotes. -/
def subToJson (s : SubReq) : Json :=
  Json.obj [(lc "id", Json.str s.id), (lc "description", Json.str s.description)]

/-- The JSON value one decomposition-result record denotes. -/
def resToJson (r : DecompResult) : Json :=
  Json.obj [(lc "row_number", Json.num r.row_number),
            (lc "decomposed_list", Json.arr (r.decomposed_list.map subToJson))]

/-- The JSON value the whole result list denotes. -/
def resultsToJson (rs : List DecompResult) : Json := Json.arr (rs.map resToJson)

/-- The text `save_results_to_json` (requirement_decomposer.py lines
243-262) writes to the output file. -/
def save_results_text (rs : List DecompResult) : Str :=
  renderJson (resultsToJson rs) 0

/-- Sequence a list of optional values. -/
def seqOpt {α : Type} : List (Option α) → Option (List α)
  | [] => some []
  | some a :: rest => (seqOpt rest).map (fun l => a :: l)
  | none :: _ => none

/-- Read a sub-requirement back from its JSON value. -/
def jsonToSub : Json → Option SubReq
  | Json.obj [(k1, Json.str i), (k2, Json.str d)] =>
    if k1 = lc "id" ∧ k2 = lc "description" then some ⟨i, d⟩ else none
  | _ => none

/-- Read a decomposition result back from its JSON value. -/
def jsonToRes : Json → Option DecompResult
  | Json.obj [(k1, Json.num n), (k2, Json.arr subs)] =>
    if k1 = lc "row_number" ∧ k2 = lc "decomposed_list" then
      (seqOpt (subs.map jsonToSub)).map (fun l => ⟨n, l⟩)
    else none
  | _ => none

/-- Read the whole result list back from its JSON value. -/
def jsonToResults : Json → Option (List DecompResult)
  | Json.arr items => seqOpt (items.map jsonToRes)
  | _ => none

/-- The well-formed mock LLM response of the spec's login example (a JSON
array of two `{id, description}` objects). -/
def exAns : Str :=
  '[' :: '{' :: lc "\"id\": \"1\", \"description\": \"【需求描述】用户名登录\""
    ++ '}' :: ',' :: ' ' :: '{'
    :: lc "\"id\": \"2\", \"description\": \"【需求描述】手机号登录\""
    ++ ['}', ']']

/-- A string of JSON whitespace only. -/
def wsOnly (s : Str) : Prop := ∀ c ∈ s, wsChar c = true

/-- A trailing string that cannot extend a just-parsed integer token:
either empty, or starting with a non-digit that is not `.`, `e` or `E`. -/
def numStop (rest : Str) : Prop :=
  ∀ c t, rest = c :: t → isDigitCh c = false ∧ c ≠ '.' ∧ c ≠ 'e' ∧ c ≠ 'E'

/-- The two sub-requirement objects that `exAns` denotes. -/
def exSubs : List Json :=
  [Json.obj [(lc "id", Json.str (lc "1")),
             (lc "description", Json.str (lc "【需求描述】用户名登录"))],
   Json.obj [(lc "id", Json.str (lc "2")),
             (lc "description", Json.str (lc "【需求描述】手机号登录"))]]

/-! ### Supporting lemmas -/

theorem dropAfterFirst_eq_none_iff (pat : Str) :
    ∀ s, dropAfterFirst pat s = none ↔ ¬ pat <:+: s := by
  intro s
  induction s with
  | nil =>
    rw [dropAfterFirst]
    by_cases h : pat.isPrefixOf ([] : Str)
    · rw [if_pos h]
      have hp : pat = [] := List.prefix_nil.mp (List.isPrefixOf_iff_prefix.mp h)
      simp [hp]
    · rw [if_neg h]
      simp only [List.infix_nil, true_iff]
      intro hp
      exact h (List.isPrefixOf_iff_prefix.mpr (by simp [hp]))
  | cons c t ih =>
    rw [dropAfterFirst]
    by_cases h : pat.isPrefixOf (c :: t)
    · rw [if_pos h]
      constructor
      · intro hsome; exact absurd hsome (by simp)
      · intro hni
        exact absurd (List.isPrefixOf_iff_prefix.mp h).isInfix hni
    · rw [if_neg h]
      rw [ih, List.infix_cons_iff]
      constructor
      · intro hnt hor
        cases hor with
        | inl hp => exact h (List.isPrefixOf_iff_prefix.mpr hp)
        | inr hi => exact hnt hi
      · intro hno hi
        exact hno (Or.inr hi)

theorem dropAfterFirst_append (field pre rest : Str) (hpre : '【' ∉ pre) :
    dropAfterFirst (marker field) (pre ++ (marker field ++ rest)) = some rest := by
  induction pre with
  | nil =>
    simp only [List.nil_append]
    have hp : (marker field).isPrefixOf (marker field ++ rest) :=
      List.isPrefixOf_iff_prefix.mpr (List.prefix_append _ _)
    rw [dropAfterFirst.eq_def, if_pos hp, List.drop_left]
  | cons c pre' ih =>
    have hc : c ≠ '【' := fun h => hpre (h ▸ List.mem_cons_self c pre')
    have hnp : ¬ (marker field).isPrefixOf (c :: (pre' ++ (marker field ++ rest))) = true := by
      intro h
      obtain ⟨t, ht⟩ := List.isPrefixOf_iff_prefix.mp h
      rw [marker] at ht
      simp only [List.cons_append] at ht
      injection ht with h1 _
      exact hc h1.symm
    rw [List.cons_append, dropAfterFirst, if_neg hnp]
    exact ih (fun h => hpre (List.mem_cons_of_mem _ h))

theorem append_dropLast_pre (pre m rest : Str) (hne : m ≠ []) :
    pre ++ m.dropLast <+: pre ++ (m ++ rest) := by
  refine ⟨[m.getLast hne] ++ rest, ?_⟩
  rw [List.append_assoc, ← List.append_assoc m.dropLast,
    List.dropLast_append_getLast hne]

theorem dropAfterFirst_first (field pre rest : Str)
    (hfirst : ¬ (marker field) <:+: (pre ++ (marker field).dropLast)) :
    dropAfterFirst (marker field) (pre ++ ((marker field) ++ rest)) = some rest := by
  induction pre with
  | nil =>
    simp only [List.nil_append]
    have hp : (marker field).isPrefixOf ((marker field) ++ rest) :=
      List.isPrefixOf_iff_prefix.mpr (List.prefix_append _ _)
    rw [dropAfterFirst.eq_def, if_pos hp, List.drop_left]
  | cons c pre' ih =>
    have hmne : marker field ≠ [] := by rw [marker]; simp
    have hnp : ¬ (marker field).isPrefixOf (c :: (pre' ++ ((marker field) ++ rest))) = true := by
      intro h
      apply hfirst
      have hsub : (c :: pre') ++ (marker field).dropLast <+:
          (c :: pre') ++ ((marker field) ++ rest) :=
        append_dropLast_pre _ _ _ hmne
      have hlen : (marker field).length ≤ ((c :: pre') ++ (marker field).dropLast).length := by
        simp only [List.length_append, List.length_cons, List.length_dropLast]
        have hpos : 0 < (marker field).length := List.length_pos.mpr hmne
        omega
      have hm : marker field <+: (c :: pre') ++ (marker field).dropLast :=
        List.prefix_of_prefix_length_le
          (List.isPrefixOf_iff_prefix.mp h) (by simpa using hsub) hlen
      exact hm.isInfix
    rw [List.cons_append, dropAfterFirst, if_neg hnp]
    apply ih
    intro hi
    apply hfirst
    have hce : (c :: pre') ++ (marker field).dropLast =
        c :: (pre' ++ (marker field).dropLast) := rfl
    rw [hce]
    exact List.infix_cons_iff.mpr (Or.inr hi)

theorem exists_first_split (pat : Str) (hne : pat ≠ []) :
    ∀ text, pat <:+: text →
      ∃ pre rest, text = pre ++ (pat ++ rest) ∧
        ¬ pat <:+: (pre ++ pat.dropLast) := by
  intro text
  induction text with
  | nil =>
    intro h
    exact absurd (List.infix_nil.mp h) hne
  | cons c t ih =>
    intro h
    by_cases hp : pat <+: c :: t
    · obtain ⟨rest, hrest⟩ := hp
      refine ⟨[], rest, by rw [← hrest]; rfl, ?_⟩
      intro hi
      have hl := hi.length_le
      rw [List.nil_append, List.length_dropLast] at hl
      have hpos : 0 < pat.length := List.length_pos.mpr hne
      omega
    · have ht : pat <:+: t := by
        rcases List.infix_cons_iff.mp h with hpr | hinf
        · exact absurd hpr hp
        · exact hinf
      obtain ⟨pre', rest, hsplit, hf'⟩ := ih ht
      refine ⟨c :: pre', rest, by rw [hsplit]; rfl, ?_⟩
      intro hi
      rcases List.infix_cons_iff.mp (by simpa using hi) with hpr2 | hinf2
      · apply hp
        have hsub : (pre' ++ pat.dropLast) ++ ([pat.getLast hne] ++ rest) =
            pre' ++ (pat ++ rest) := by
          rw [List.append_assoc, ← List.append_assoc pat.dropLast,
            List.dropLast_append_getLast hne]
        have hbig : c :: (pre' ++ pat.dropLast) <+: c :: t := by
          rw [hsplit, ← hsub]
          exact ⟨[pat.getLast hne] ++ rest, by rw [List.cons_append]⟩
        exact hpr2.trans hbig
      · exact hf' hinf2

theorem takeWhile_mem_split (p : Char → Bool) :
    ∀ l : Str, (∀ c ∈ l, p c) ∨
      ∃ a c b, l = a ++ c :: b ∧ (∀ x ∈ a, p x) ∧ p c = false ∧
        l.takeWhile p = a := by
  intro l
  induction l with
  | nil => left; simp
  | cons c t ih =>
    by_cases hc : p c
    · cases ih with
      | inl h =>
        left
        intro x hx
        rcases List.mem_cons.mp hx with rfl | hx
        · exact hc
        · exact h x hx
      | inr h =>
        obtain ⟨a, d, b, hsplit, ha, hd, htw⟩ := h
        right
        refine ⟨c :: a, d, b, by rw [hsplit]; rfl, ?_, hd, ?_⟩
        · intro x hx
          rcases List.mem_cons.mp hx with rfl | hx
          · exact hc
          · exact ha x hx
        · rw [List.takeWhile_cons_of_pos hc, htw]
    · right
      refine ⟨[], c, t, rfl, by simp, by simpa using hc, ?_⟩
      rw [List.takeWhile_cons_of_neg hc]

/-! ### C6 -/

/-- C6: for every input string containing the marker `【需求描述】`,
`extract_content(text, "需求描述")` returns exactly the text between the
end of the first occurrence of that marker and the next marker-opening
`【` (or the end of the string when none follows), stripped of leading and
trailing whitespace; when the marker is absent it returns `None`.  A split
`text = pre ++ marker ++ rest` sits at the first occurrence exactly when
the marker is not an infix of `pre` extended by all but the marker's last
character (in particular other `【...】` sections may well precede the
marker inside `pre`); the second conjunct shows such a split exists for
every text containing the marker and pins the returned value there, the
third pins the value at every such split. -/
theorem extract_content_spec (text field : Str) :
    (¬ (marker field) <:+: text → extract_content text field = none) ∧
    ((marker field) <:+: text →
      ∃ pre rest, text = pre ++ ((marker field) ++ rest) ∧
        ¬ (marker field) <:+: (pre ++ (marker field).dropLast) ∧
        (('【' ∉ rest ∧ extract_content text field = some (stripL rest)) ∨
         (∃ a b, rest = a ++ '【' :: b ∧ '【' ∉ a ∧
           extract_content text field = some (stripL a)))) ∧
    (∀ pre rest, ¬ (marker field) <:+: (pre ++ (marker field).dropLast) →
      text = pre ++ ((marker field) ++ rest) →
      ('【' ∉ rest ∧ extract_content text field = some (stripL rest)) ∨
      (∃ a b, rest = a ++ '【' :: b ∧ '【' ∉ a ∧
        extract_content text field = some (stripL a))) := by
  have hval : ∀ pre rest,
      ¬ (marker field) <:+: (pre ++ (marker field).dropLast) →
      text = pre ++ ((marker field) ++ rest) →
      ('【' ∉ rest ∧ extract_content text field = some (stripL rest)) ∨
      (∃ a b, rest = a ++ '【' :: b ∧ '【' ∉ a ∧
        extract_content text field = some (stripL a)) := by
    intro pre rest hfirst htext
    subst htext
    unfold extract_content
    rw [dropAfterFirst_first field pre rest hfirst]
    rcases takeWhile_mem_split (fun c => c ≠ '【') rest with hall |
      ⟨a, c, b, hsplit, ha, hc, htw⟩
    · left
      constructor
      · intro hmem
        have := hall _ hmem
        simp at this
      · have : rest.takeWhile (fun c => (c ≠ '【' : Bool)) = rest :=
          List.takeWhile_eq_self_iff.mpr hall
        rw [Option.map_some', this]
    · have hceq : c = '【' := by simpa using hc
      subst hceq
      right
      refine ⟨a, b, hsplit, ?_, ?_⟩
      · intro hmem
        have := ha _ hmem
        simp at this
      · rw [Option.map_some', htw]
  refine ⟨?_, ?_, hval⟩
  · intro h
    unfold extract_content
    rw [(dropAfterFirst_eq_none_iff _ _).mpr h]
    rfl
  · intro h
    have hmne : marker field ≠ [] := by rw [marker]; simp
    obtain ⟨pre, rest, hsplit, hfirst⟩ := exists_first_split (marker field) hmne text h
    exact ⟨pre, rest, hsplit, hfirst, hval pre rest hfirst hsplit⟩

/-- Witness for C6: in the template-shaped text
`【需求价值】v【需求描述】 hello 【X】tail`, where the section `【需求价值】`
precedes the marker, the extraction anchors at the marker's first
occurrence and yields exactly the stripped interior `hello`. -/
theorem extract_content_spec_witness :
    ('【' ∉ lc " hello 【X】tail" ∧
      extract_content (lc "【需求价值】v【需求描述】 hello 【X】tail") (lc "需求描述") =
        some (stripL (lc " hello 【X】tail"))) ∨
    (∃ a b, lc " hello 【X】tail" = a ++ '【' :: b ∧ '【' ∉ a ∧
      extract_content (lc "【需求价值】v【需求描述】 hello 【X】tail") (lc "需求描述") =
        some (stripL a)) :=
  (extract_content_spec (lc "【需求价值】v【需求描述】 hello 【X】tail") (lc "需求描述")).2.2
    (lc "【需求价值】v") (lc " hello 【X】tail") (by decide) (by decide)

/-! ### C5 -/

theorem extract_descriptions_eq_filterMap :
    ∀ l : List DItem, extract_descriptions_from_list l = l.filterMap extractOne := by
  intro l
  induction l with
  | nil => rfl
  | cons it rest ih =>
    rw [List.filterMap_cons]
    cases hd : it.description with
    | none => simp [extract_descriptions_from_list, extractOne, hd, ih]
    | some d =>
      by_cases hde : d = []
      · simp [extract_descriptions_from_list, extractOne, hd, hde, ih]
      · cases hec : extract_content d (lc "需求描述") with
        | none => simp [extract_descriptions_from_list, extractOne, hd, hde, hec, ih]
        | some c =>
          by_cases hce : c = []
          · simp [extract_descriptions_from_list, extractOne, hd, hde, hec, hce, ih]
          · simp [extract_descriptions_from_list, extractOne, hd, hde, hec, hce, ih]

/-- C5 counterexample: for the record with `row_number = 1` and a
one-element `decomposed_list` whose description contains no
`【需求描述】` marker, the produced metric record has
`description_count = 0` (not the number of sub-requirements, 1) and an
empty `concatenated` (not the join of the raw descriptions). -/
theorem process_json_count_counterexample :
    ¬ (∀ m ∈ process_json_data [⟨some 1, some [⟨some (lc "no marker here")⟩]⟩],
        m.description_count = 1 ∧ m.concatenated = lc "no marker here") := by
  intro h
  have hm : (⟨1, [], 0⟩ : MetricRec) ∈
      process_json_data [⟨some 1, some [⟨some (lc "no marker here")⟩]⟩] := by
    decide
  exact absurd (h _ hm).1 (by decide)

/-- C5 (amended): for every decomposition-output record with a truthy
`row_number` and non-empty `decomposed_list`, the metric record produced
by `process_json_file` has `concatenated` equal to the space-join of the
extracted `【需求描述】` contents of exactly those entries whose
description is present, non-empty and yields a non-empty extraction, and
`description_count` equal to the number of those entries (not to the raw
length of `decomposed_list`). -/
theorem process_json_record_spec :
    ∀ (pre post : List DRec) (n : Int) (l : List DItem),
      n ≠ 0 → l ≠ [] →
      process_json_data (pre ++ ⟨some n, some l⟩ :: post) =
        process_json_data pre ++
          (⟨n, joinSp (l.filterMap extractOne), (l.filterMap extractOne).length⟩ :
            MetricRec) :: process_json_data post := by
  intro pre post n l hn hl
  unfold process_json_data
  rw [List.filterMap_append, List.filterMap_cons]
  have hmet : metricOfRec ⟨some n, some l⟩ =
      some ⟨n, joinSp (l.filterMap extractOne), (l.filterMap extractOne).length⟩ := by
    simp only [metricOfRec]
    rw [if_neg (by exact fun hcontra => hcontra.elim hn hl)]
    rw [extract_descriptions_eq_filterMap]
  rw [hmet]

/-- Witness for C5 (amended) at a concrete two-element list: only the
marker-bearing entry is counted. -/
theorem process_json_record_spec_witness :
    process_json_data [⟨some 7, some [⟨some (lc "【需求描述】甲")⟩, ⟨some (lc "skip")⟩]⟩] =
      [⟨7, joinSp (([⟨some (lc "【需求描述】甲")⟩, ⟨some (lc "skip")⟩] :
            List DItem).filterMap extractOne),
        (([⟨some (lc "【需求描述】甲")⟩, ⟨some (lc "skip")⟩] :
            List DItem).filterMap extractOne).length⟩] := by
  have h := process_json_record_spec [] [] 7
    [⟨some (lc "【需求描述】甲")⟩, ⟨some (lc "skip")⟩] (by decide) (by decide)
  simpa using h

/-! ### C1 and C10: the decomposer batch driver -/

theorem mem_decomposerMain :
    ∀ (items : List ReqItem) (stream : List (Option (List Json))) (o : OutRec),
      o ∈ decomposerMain items stream →
      ∃ it, it ∈ items ∧ it.row = some o.row_number ∧ o.row_number ≠ 0 ∧
        ∃ q, it.req = some q ∧ q ≠ [] := by
  intro items
  induction items with
  | nil =>
    intro stream o h
    simp [decomposerMain] at h
  | cons it rest ih =>
    intro stream o h
    have step : ∀ s', o ∈ decomposerMain rest s' →
        ∃ it', it' ∈ it :: rest ∧ it'.row = some o.row_number ∧
          o.row_number ≠ 0 ∧ ∃ q, it'.req = some q ∧ q ≠ [] := by
      intro s' h'
      obtain ⟨it', hmem, hrow, hnz, q, hq, hqne⟩ := ih s' o h'
      exact ⟨it', List.mem_cons_of_mem _ hmem, hrow, hnz, q, hq, hqne⟩
    cases hrow : it.row with
    | none =>
      simp only [decomposerMain, hrow] at h
      exact step stream h
    | some n =>
      cases hreq : it.req with
      | none =>
        simp only [decomposerMain, hrow, hreq] at h
        exact step stream h
      | some q =>
        by_cases hcond : n = 0 ∨ q = []
        · simp only [decomposerMain, hrow, hreq, if_pos hcond] at h
          exact step stream h
        · cases stream with
          | nil =>
            simp only [decomposerMain, hrow, hreq, if_neg hcond] at h
            exact step [] h
          | cons resp stream' =>
            cases resp with
            | none =>
              simp only [decomposerMain, hrow, hreq, if_neg hcond] at h
              exact step stream' h
            | some l =>
              by_cases hle : l.isEmpty
              · simp only [decomposerMain, hrow, hreq, if_neg hcond, if_pos hle] at h
                exact step stream' h
              · simp only [decomposerMain, hrow, hreq, if_neg hcond, if_neg hle] at h
                rcases List.mem_cons.mp h with rfl | h'
                · push_neg at hcond
                  exact ⟨it, List.mem_cons_self _ _, hrow, hcond.1, q, hreq, hcond.2⟩
                · exact step stream' h'

/-- C1: the row_number of every record the decomposer batch driver
(`main`, requirement_decomposer.py lines 299-334) outputs is the row value
of some input record; a record with a missing row or req field is skipped
producing no output, and a row whose API call fails (response `None`) is
dropped entirely while still consuming its one call. -/
theorem decomposer_rows_subset :
    (∀ (items : List ReqItem) (stream : List (Option (List Json))) (o : OutRec),
        o ∈ decomposerMain items stream →
        ∃ it, it ∈ items ∧ it.row = some o.row_number) ∧
    (∀ (it : ReqItem) (rest : List ReqItem) (s : List (Option (List Json))),
        it.row = none ∨ it.req = none →
        decomposerMain (it :: rest) s = decomposerMain rest s) ∧
    (∀ (it : ReqItem) (rest : List ReqItem) (s' : List (Option (List Json)))
        (n : Int) (q : Str),
        it.row = some n → it.req = some q → ¬(n = 0 ∨ q = []) →
        decomposerMain (it :: rest) (none :: s') = decomposerMain rest s') := by
  refine ⟨?_, ?_, ?_⟩
  · intro items stream o h
    obtain ⟨it, hmem, hrow, _⟩ := mem_decomposerMain items stream o h
    exact ⟨it, hmem, hrow⟩
  · intro it rest s h
    cases h with
    | inl h => simp only [decomposerMain, h]
    | inr h =>
      cases hrow : it.row with
      | none => simp only [decomposerMain, hrow]
      | some n => simp only [decomposerMain, hrow, h]
  · intro it rest s' n q hn hq hcond
    simp only [decomposerMain, hn, hq, if_neg hcond]

/-- Witness for C1 at a concrete input: a valid row whose API call fails
produces no output record and consumes its response. -/
theorem decomposer_rows_subset_witness :
    decomposerMain [⟨some 5, some (lc "req text")⟩] [none] = decomposerMain [] [] :=
  decomposer_rows_subset.2.2 ⟨some 5, some (lc "req text")⟩ [] [] 5 (lc "req text")
    rfl rfl (by decide)

/-- C10: the driver tests row validity by Python truthiness, so a record
whose row is the integer 0 — or whose req is the empty string — is
skipped as invalid, and every record contributing to the output has a
nonzero row number and a non-empty requirement text. -/
theorem decomposer_truthiness :
    (∀ (it : ReqItem) (rest : List ReqItem) (s : List (Option (List Json))),
        it.row = some 0 → decomposerMain (it :: rest) s = decomposerMain rest s) ∧
    (∀ (it : ReqItem) (rest : List ReqItem) (s : List (Option (List Json))),
        it.req = some [] → decomposerMain (it :: rest) s = decomposerMain rest s) ∧
    (∀ (items : List ReqItem) (stream : List (Option (List Json))) (o : OutRec),
        o ∈ decomposerMain items stream →
        o.row_number ≠ 0 ∧ ∃ it, it ∈ items ∧ it.row = some o.row_number ∧
          ∃ q, it.req = some q ∧ q ≠ []) := by
  refine ⟨?_, ?_, ?_⟩
  · intro it rest s h
    cases hreq : it.req with
    | none => simp only [decomposerMain, h, hreq]
    | some q => simp [decomposerMain, h, hreq]
  · intro it rest s h
    cases hrow : it.row with
    | none => simp only [decomposerMain, hrow]
    | some n => simp [decomposerMain, hrow, h]
  · intro items stream o h
    obtain ⟨it, hmem, hrow, hnz, q, hq, hqne⟩ := mem_decomposerMain items stream o h
    exact ⟨hnz, it, hmem, hrow, q, hq, hqne⟩

/-- Witness for C10: concrete records with `row = 0` and with `req = ""`
are both skipped. -/
theorem decomposer_truthiness_witness :
    decomposerMain [⟨some 0, some (lc "text")⟩] [some [Json.null]] =
      decomposerMain [] [some [Json.null]] ∧
    decomposerMain [⟨some 9, some []⟩] [some [Json.null]] =
      decomposerMain [] [some [Json.null]] :=
  ⟨decomposer_truthiness.1 ⟨some 0, some (lc "text")⟩ [] [some [Json.null]] rfl,
   decomposer_truthiness.2.1 ⟨some 9, some []⟩ [] [some [Json.null]] rfl⟩

/-! ### C2: decompose_requirement response handling -/

/-- C2: `decompose_requirement` returns `None` exactly when the raw LLM
response is absent, empty, fails to parse, or parses to a non-array; a
parsed array is returned unchanged (order and ids included); and exactly
one API response is consumed per call — never a second one. -/
theorem decompose_response_spec :
    ∀ (parse : Str → Option Json) (stream : List (Option Str)),
      (decompose_requirement parse stream).2 = stream.drop 1 ∧
      ((decompose_requirement parse stream).1 = none ↔
        ((consume stream).1 = none ∨ (consume stream).1 = some [] ∨
          ∃ s, (consume stream).1 = some s ∧ s ≠ [] ∧
            (parse s = none ∨ ∀ xs, parse s ≠ some (Json.arr xs)))) ∧
      (∀ s xs, (consume stream).1 = some s → s ≠ [] →
        parse s = some (Json.arr xs) →
        (decompose_requirement parse stream).1 = some xs) := by
  intro parse stream
  refine ⟨?_, ?_, ?_⟩
  · cases stream with
    | nil => rfl
    | cons r rest =>
      cases r with
      | none => rfl
      | some s =>
        by_cases hs : s = []
        · simp [decompose_requirement, consume, hs]
        · cases hp : parse s with
          | none => simp [decompose_requirement, consume, hs, hp]
          | some v => cases v <;> simp [decompose_requirement, consume, hs, hp]
  · cases stream with
    | nil =>
      constructor
      · intro _; exact Or.inl rfl
      · intro _; rfl
    | cons r rest =>
      cases r with
      | none =>
        constructor
        · intro _; exact Or.inl rfl
        · intro _; rfl
      | some s =>
        by_cases hs : s = []
        · subst hs
          constructor
          · intro _; exact Or.inr (Or.inl rfl)
          · intro _; simp [decompose_requirement, consume]
        · cases hp : parse s with
          | none =>
            constructor
            · intro _; exact Or.inr (Or.inr ⟨s, rfl, hs, Or.inl hp⟩)
            · intro _; simp [decompose_requirement, consume, hs, hp]
          | some v =>
            cases v with
            | arr xs =>
              constructor
              · intro hnone
                rw [show (decompose_requirement parse (some s :: rest)).1 = some xs by
                      simp [decompose_requirement, consume, hs, hp]] at hnone
                exact absurd hnone (by simp)
              · rintro (h | h | ⟨s', hs', hne, hor⟩)
                · exact absurd h (by simp [consume])
                · have : s = [] := by simpa [consume] using h
                  exact absurd this hs
                · have hss : s = s' := by simpa [consume] using hs'
                  subst hss
                  cases hor with
                  | inl h => rw [h] at hp; exact Option.noConfusion hp
                  | inr h => exact absurd hp (h xs)
            | str t =>
              constructor
              · intro _
                refine Or.inr (Or.inr ⟨s, rfl, hs, Or.inr (fun xs hxx => ?_)⟩)
                rw [hp] at hxx
                simp at hxx
              · intro _; simp [decompose_requirement, consume, hs, hp]
            | num m =>
              constructor
              · intro _
                refine Or.inr (Or.inr ⟨s, rfl, hs, Or.inr (fun xs hxx => ?_)⟩)
                rw [hp] at hxx
                simp at hxx
              · intro _; simp [decompose_requirement, consume, hs, hp]
            | bool b =>
              constructor
              · intro _
                refine Or.inr (Or.inr ⟨s, rfl, hs, Or.inr (fun xs hxx => ?_)⟩)
                rw [hp] at hxx
                simp at hxx
              · intro _; simp [decompose_requirement, consume, hs, hp]
            | null =>
              constructor
              · intro _
                refine Or.inr (Or.inr ⟨s, rfl, hs, Or.inr (fun xs hxx => ?_)⟩)
                rw [hp] at hxx
                simp at hxx
              · intro _; simp [decompose_requirement, consume, hs, hp]
            | obj kvs =>
              constructor
              · intro _
                refine Or.inr (Or.inr ⟨s, rfl, hs, Or.inr (fun xs hxx => ?_)⟩)
                rw [hp] at hxx
                simp at hxx
              · intro _; simp [decompose_requirement, consume, hs, hp]
  · intro s xs hcons hs hp
    cases stream with
    | nil => exact absurd hcons (by simp [consume])
    | cons r rest =>
      cases r with
      | none => exact absurd hcons (by simp [consume])
      | some s0 =>
        have hss : s0 = s := by simpa [consume] using hcons
        subst hss
        simp [decompose_requirement, consume, hs, hp]

/-- Witness for C2: the spec's mock login response parses to a two-element
array which is returned unchanged, ids and order preserved. -/
theorem decompose_response_spec_witness :
    (decompose_requirement parseJson [some exAns]).1 = some exSubs :=
  (decompose_response_spec parseJson [some exAns]).2.2 exAns exSubs rfl
    (by decide) rfl

/-! ### C3: evaluate_decomposition response handling -/

/-- C3 counterexample: at the concrete response `[1, 2]` (which parses to
a JSON array, not a `{score, justification}` object) the evaluator returns
the array unchanged to the caller instead of an absent result — the code
performs no check on the parsed value's shape. -/
theorem evaluate_nonobject_counterexample :
    (evaluate_decomposition parseJson [some (lc "[1, 2]")]).1 =
      some (Json.arr [Json.num 1, Json.num 2]) ∧
    ¬ ∃ kvs, (evaluate_decomposition parseJson [some (lc "[1, 2]")]).1 =
        some (Json.obj kvs) := by
  constructor
  · rfl
  · rintro ⟨kvs, h⟩
    rw [show (evaluate_decomposition parseJson [some (lc "[1, 2]")]).1 =
          some (Json.arr [Json.num 1, Json.num 2]) from rfl] at h
    simp at h

/-- C3 (amended): `evaluate_decomposition` returns `None` exactly when the
call fails, the response is empty, or the response does not parse as JSON;
any successfully parsed JSON value — whatever its shape — is returned to
the caller unchanged, with no validation against the
`{score, justification}` schema; exactly one response is consumed. -/
theorem evaluate_response_spec :
    ∀ (parse : Str → Option Json) (stream : List (Option Str)),
      (evaluate_decomposition parse stream).2 = stream.drop 1 ∧
      ((evaluate_decomposition parse stream).1 = none ↔
        ((consume stream).1 = none ∨ (consume stream).1 = some [] ∨
          ∃ s, (consume stream).1 = some s ∧ s ≠ [] ∧ parse s = none)) ∧
      (∀ s v, (consume stream).1 = some s → s ≠ [] → parse s = some v →
        (evaluate_decomposition parse stream).1 = some v) := by
  intro parse stream
  refine ⟨?_, ?_, ?_⟩
  · cases stream with
    | nil => rfl
    | cons r rest =>
      cases r with
      | none => rfl
      | some s =>
        by_cases hs : s = []
        · simp [evaluate_decomposition, consume, hs]
        · cases hp : parse s with
          | none => simp [evaluate_decomposition, consume, hs, hp]
          | some v => simp [evaluate_decomposition, consume, hs, hp]
  · cases stream with
    | nil =>
      constructor
      · intro _; exact Or.inl rfl
      · intro _; rfl
    | cons r rest =>
      cases r with
      | none =>
        constructor
        · intro _; exact Or.inl rfl
        · intro _; rfl
      | some s =>
        by_cases hs : s = []
        · subst hs
          constructor
          · intro _; exact Or.inr (Or.inl rfl)
          · intro _; simp [evaluate_decomposition, consume]
        · cases hp : parse s with
          | none =>
            constructor
            · intro _; exact Or.inr (Or.inr ⟨s, rfl, hs, hp⟩)
            · intro _; simp [evaluate_decomposition, consume, hs, hp]
          | some v =>
            constructor
            · intro hnone
              rw [show (evaluate_decomposition parse (some s :: rest)).1 = some v by
                    simp [evaluate_decomposition, consume, hs, hp]] at hnone
              exact absurd hnone (by simp)
            · rintro (h | h | ⟨s', hs', hne, hps'⟩)
              · exact absurd h (by simp [consume])
              · have : s = [] := by simpa [consume] using h
                exact absurd this hs
              · have hss : s = s' := by simpa [consume] using hs'
                subst hss
                rw [hps'] at hp
                exact Option.noConfusion hp
  · intro s v hcons hs hp
    cases stream with
    | nil => exact absurd hcons (by simp [consume])
    | cons r rest =>
      cases r with
      | none => exact absurd hcons (by simp [consume])
      | some s0 =>
        have hss : s0 = s := by simpa [consume] using hcons
        subst hss
        simp [evaluate_decomposition, consume, hs, hp]

/-- Witness for C3 (amended): a concrete parsed value is passed through
unchanged. -/
theorem evaluate_response_spec_witness :
    (evaluate_decomposition parseJson [some (lc "[3]")]).1 =
      some (Json.arr [Json.num 3]) :=
  (evaluate_response_spec parseJson [some (lc "[3]")]).2.2 (lc "[3]")
    (Json.arr [Json.num 3]) rfl (by decide) rfl

/-! ### C4: metrics alignment -/

/-- C4 counterexample: at the claim's example maps — predictions keyed
`{1: "a", 2: "b"}`, references keyed `{2: "x", 3: "y"}` — only row 2 is
aligned, and the loop logs no skip message at all: rows 1 and 3 do not
each produce a log entry as the claim states (the loop body of
metrics.py lines 38-42 contains no print). -/
theorem metrics_alignment_counterexample :
    (alignData [(1, lc "a"), (2, lc "b")] [(2, lc "x"), (3, lc "y")]).rows = [2] ∧
    (alignData [(1, lc "a"), (2, lc "b")] [(2, lc "x"), (3, lc "y")]).skip_logs = [] := by
  constructor <;> rfl

/-- C4 (amended): the alignment is an inner join on row keys — exactly
the rows present in both maps are scored — and rows present in only one
map are dropped silently: no per-row skip message is logged. -/
theorem metrics_alignment_inner_join :
    ∀ (preds refs : List (Int × Str)),
      (alignData preds refs).skip_logs = [] ∧
      ∀ r : Int, r ∈ (alignData preds refs).rows ↔
        ((∃ t, (r, t) ∈ preds) ∧ lookupRow refs r ≠ none) := by
  intro preds refs
  induction preds with
  | nil => simp [alignData]
  | cons p rest ih =>
    obtain ⟨ihlog, ihrows⟩ := ih
    obtain ⟨row, ptext⟩ := p
    constructor
    · cases hl : lookupRow refs row <;> simp only [alignData, hl] <;> exact ihlog
    · intro r
      cases hl : lookupRow refs row with
      | none =>
        simp only [alignData, hl]
        rw [ihrows r]
        constructor
        · rintro ⟨⟨t, ht⟩, hr⟩
          exact ⟨⟨t, List.mem_cons_of_mem _ ht⟩, hr⟩
        · rintro ⟨⟨t, ht⟩, hr⟩
          rcases List.mem_cons.mp ht with heq | ht'
          · injection heq with h1 h2
            subst h1
            exact absurd hl hr
          · exact ⟨⟨t, ht'⟩, hr⟩
      | some rtext =>
        simp only [alignData, hl, List.mem_cons]
        constructor
        · rintro (rfl | hin)
          · exact ⟨⟨ptext, Or.inl rfl⟩, by rw [hl]; simp⟩
          · obtain ⟨⟨t, ht⟩, hr⟩ := (ihrows r).mp hin
            exact ⟨⟨t, Or.inr ht⟩, hr⟩
        · rintro ⟨⟨t, ht⟩, hr⟩
          rcases ht with heq | ht'
          · injection heq with h1 h2
            exact Or.inl h1
          · exact Or.inr ((ihrows r).mpr ⟨⟨t, ht'⟩, hr⟩)

/-! ### C7: get_requirement_from_excel -/

/-- C7: `get_requirement_from_excel` returns `None` when the workbook is
unreadable, the requested header is absent from the first row (headers are
matched by exact string equality), the row number lies outside
`1..max_row`, or the addressed cell is empty, holds the empty string, or
holds a non-string value; otherwise — and only then — it returns the
cell's string stripped. -/
theorem get_requirement_spec :
    ∀ (wb : Option Sheet) (colName : Str) (rowNum : Int),
      (wb = none → get_requirement_from_excel wb colName rowNum = none) ∧
      (∀ sh, wb = some sh →
        ((findHeaderIdx sh.headerRow colName = none ↔
            CellVal.str colName ∉ sh.headerRow) ∧
         (findHeaderIdx sh.headerRow colName = none →
            get_requirement_from_excel wb colName rowNum = none) ∧
         (¬ (1 ≤ rowNum ∧ rowNum ≤ (sh.maxRow : Int)) →
            get_requirement_from_excel wb colName rowNum = none) ∧
         (∀ i, findHeaderIdx sh.headerRow colName = some i →
            (1 ≤ rowNum ∧ rowNum ≤ (sh.maxRow : Int)) →
            ((sh.cellAt rowNum.toNat (i + 1) = CellVal.empty ∨
              sh.cellAt rowNum.toNat (i + 1) = CellVal.other ∨
              sh.cellAt rowNum.toNat (i + 1) = CellVal.str [] →
                get_requirement_from_excel wb colName rowNum = none) ∧
             (∀ s, sh.cellAt rowNum.toNat (i + 1) = CellVal.str s → s ≠ [] →
                get_requirement_from_excel wb colName rowNum =
                  some (stripL s)))))) := by
  intro wb colName rowNum
  refine ⟨?_, ?_⟩
  · intro h; rw [h]; rfl
  · intro sh hwb
    subst hwb
    refine ⟨?_, ?_, ?_, ?_⟩
    · unfold findHeaderIdx
      rw [List.findIdx?_eq_none_iff]
      constructor
      · intro h hmem
        have := h _ hmem
        simp at this
      · intro h x hx
        simp only [decide_eq_false_iff_not]
        intro hx2
        exact h (hx2 ▸ hx)
    · intro h
      simp only [get_requirement_from_excel, h]
    · intro h
      cases hf : findHeaderIdx sh.headerRow colName with
      | none => simp only [get_requirement_from_excel, hf]
      | some i => simp only [get_requirement_from_excel, hf, if_neg h]
    · intro i hf hrange
      constructor
      · intro hcell
        rcases hcell with h | h | h <;>
          simp [get_requirement_from_excel, hf, if_pos hrange, h]
      · intro s hcell hsne
        simp only [get_requirement_from_excel, hf, if_pos hrange, hcell,
          if_neg hsne]

/-- Witness for C7: a concrete two-row sheet where the header is found in
column 1 and the addressed cell's string is returned stripped. -/
theorem get_requirement_spec_witness :
    get_requirement_from_excel
      (some ⟨[[CellVal.str (lc "L1华为格式")], [CellVal.str (lc " hi ")]]⟩)
      (lc "L1华为格式") 2 = some (stripL (lc " hi ")) :=
  (((get_requirement_spec
        (some ⟨[[CellVal.str (lc "L1华为格式")], [CellVal.str (lc " hi ")]]⟩)
        (lc "L1华为格式") 2).2
      ⟨[[CellVal.str (lc "L1华为格式")], [CellVal.str (lc " hi ")]]⟩ rfl).2.2.2 0
      (by decide) (by decide)).2 (lc " hi ") (by decide) (by decide)

/-! ### C9: process_excel_file -/

theorem pefLoop_ok_spec (wb : Option Sheet) :
    ∀ (rows : List Int) (descs : List (Option Str)) (last : Int)
      (acc : List Block) (bs : List Block),
      pefLoop wb rows descs last acc = Except.ok bs →
      (∀ r ∈ rows, get_requirement_from_excel wb (lc "L2华为格式") r ≠ none) ∧
      ∃ blk rest2, bs = acc ++ blk :: rest2 ∧ blk.row = last ∧
        blk.description_count = descs.length +
          (rows.takeWhile (fun r =>
            !truthyOptStr (get_requirement_from_excel wb (lc "L1华为格式") r))).length := by
  intro rows
  induction rows with
  | nil =>
    intro descs last acc bs h
    refine ⟨by simp, ?_⟩
    cases hj : joinSpOpt descs with
    | error e => simp [pefLoop, hj] at h
    | ok c =>
      have hbs : acc ++ [(⟨last, c, descs.length⟩ : Block)] = bs := by
        simpa [pefLoop, hj] using h
      exact ⟨⟨last, c, descs.length⟩, [], by simp [← hbs], rfl, by simp⟩
  | cons r rs ih =>
    intro descs last acc bs h
    by_cases ht : truthyOptStr (get_requirement_from_excel wb (lc "L1华为格式") r)
    · cases hj : joinSpOpt descs with
      | error e => simp [pefLoop, ht, hj] at h
      | ok c =>
        cases hl2 : get_requirement_from_excel wb (lc "L2华为格式") r with
        | none =>
          simp [pefLoop, ht, hj, hl2, extract_content_py] at h
        | some s =>
          have h' : pefLoop wb rs ([] ++ [extract_content s (lc "需求描述")]) r
              (acc ++ [(⟨last, c, descs.length⟩ : Block)]) = Except.ok bs := by
            simpa [pefLoop, ht, hj, hl2, extract_content_py] using h
          obtain ⟨hall, blk, rest2, hbs, hrow, hcount⟩ := ih _ _ _ _ h'
          refine ⟨?_, ⟨last, c, descs.length⟩, blk :: rest2, ?_, rfl, ?_⟩
          · intro r' hr'
            rcases List.mem_cons.mp hr' with rfl | hr''
            · rw [hl2]; simp
            · exact hall r' hr''
          · rw [hbs]; simp
          · have hnf : (!truthyOptStr
                (get_requirement_from_excel wb (lc "L1华为格式") r)) = false := by
              simp [ht]
            rw [List.takeWhile_cons_of_neg (by simp [hnf])]
            simp
    · cases hl2 : get_requirement_from_excel wb (lc "L2华为格式") r with
      | none => simp [pefLoop, ht, hl2, extract_content_py] at h
      | some s =>
        have h' : pefLoop wb rs (descs ++ [extract_content s (lc "需求描述")])
            last acc = Except.ok bs := by
          simpa [pefLoop, ht, hl2, extract_content_py] using h
        obtain ⟨hall, blk, rest2, hbs, hrow, hcount⟩ := ih _ _ _ _ h'
        refine ⟨?_, blk, rest2, hbs, hrow, ?_⟩
        · intro r' hr'
          rcases List.mem_cons.mp hr' with rfl | hr''
          · rw [hl2]; simp
          · exact hall r' hr''
        · have hf : truthyOptStr
              (get_requirement_from_excel wb (lc "L1华为格式") r) = false := by
            revert ht
            cases truthyOptStr (get_requirement_from_excel wb (lc "L1华为格式") r) <;>
              simp
          rw [List.takeWhile_cons_of_pos (by simp [hf]), hcount]
          simp
          omega

/-- C9: `process_excel_file` is total only when every scanned row's
`L2华为格式` cell yields a string: whenever `get_requirement_from_excel`
returns `None` for a scanned L2 cell the scan raises (`extract_content`
receives `None`) and no grouped result is returned; and on success the
first emitted block — the rows preceding the first truthy `L1华为格式`
cell — is keyed by row 0. -/
theorem process_excel_spec :
    (∀ (wb : Option Sheet) (row_end : Int) (bs : List Block),
        process_excel_file wb row_end = Except.ok bs →
        (∀ r ∈ rangeRows row_end,
            get_requirement_from_excel wb (lc "L2华为格式") r ≠ none) ∧
        ∃ blk rest2, bs = blk :: rest2 ∧ blk.row = 0 ∧
          blk.description_count =
            ((rangeRows row_end).takeWhile (fun r =>
              !truthyOptStr
                (get_requirement_from_excel wb (lc "L1华为格式") r))).length) ∧
    (∀ (wb : Option Sheet) (row_end : Int) (r : Int),
        r ∈ rangeRows row_end →
        get_requirement_from_excel wb (lc "L2华为格式") r = none →
        process_excel_file wb row_end = Except.error ()) := by
  constructor
  · intro wb row_end bs h
    obtain ⟨hall, blk, rest2, hbs, hrow, hcount⟩ :=
      pefLoop_ok_spec wb (rangeRows row_end) [] 0 [] bs h
    exact ⟨hall, blk, rest2, by simpa using hbs, hrow, by simpa using hcount⟩
  · intro wb row_end r hr hl2
    cases hres : process_excel_file wb row_end with
    | error e => cases e; rfl
    | ok bs =>
      obtain ⟨hall, _⟩ := pefLoop_ok_spec wb (rangeRows row_end) [] 0 [] bs hres
      exact absurd hl2 (hall r hr)

/-- Witness for C9: with an unreadable workbook every L2 lookup yields
`None`, so the scan of rows `2..2` raises instead of returning blocks. -/
theorem process_excel_spec_witness :
    process_excel_file (none : Option Sheet) 3 = Except.error () :=
  process_excel_spec.2 none 3 2 (by decide) rfl

/-! ### C8 support: whitespace and token lemmas -/

theorem skipWs_cons_of_not (c : Char) (t : Str) (h : wsChar c = false) :
    skipWs (c :: t) = c :: t := by
  unfold skipWs
  rw [List.dropWhile_cons_of_neg (by simp [h])]

theorem skipWs_append (ws t : Str) (h : wsOnly ws) :
    skipWs (ws ++ t) = skipWs t := by
  induction ws with
  | nil => rfl
  | cons c cs ih =>
    rw [List.cons_append]
    unfold skipWs
    rw [List.dropWhile_cons_of_pos (h c (List.mem_cons_self _ _))]
    exact ih (fun c hc => h c (List.mem_cons_of_mem _ hc))

theorem wsOnly_indent (l : Nat) : wsOnly (indentStr l) := by
  intro c hc
  rw [indentStr] at hc
  rw [List.eq_of_mem_replicate hc]
  rfl

theorem wsOnly_cons_indent (l : Nat) : wsOnly ('\n' :: indentStr l) := by
  intro c hc
  rcases List.mem_cons.mp hc with rfl | hc'
  · rfl
  · exact wsOnly_indent l c hc'

theorem wsChar_vals (c : Char) (h : wsChar c = true) :
    c.toNat = 32 ∨ c.toNat = 9 ∨ c.toNat = 10 ∨ c.toNat = 13 := by
  simp [wsChar] at h
  rcases h with ((rfl | rfl) | rfl) | rfl
  · left; rfl
  · right; left; rfl
  · right; right; left; rfl
  · right; right; right; rfl

theorem wsChar_stop (c : Char) (h : wsChar c = true) :
    isDigitCh c = false ∧ c ≠ '.' ∧ c ≠ 'e' ∧ c ≠ 'E' := by
  have hv := wsChar_vals c h
  refine ⟨?_, ?_, ?_, ?_⟩
  · simp only [isDigitCh]
    rcases hv with h' | h' | h' | h' <;> simp [h']
  · intro heq; subst heq; simp at hv
  · intro heq; subst heq; simp at hv
  · intro heq; subst heq; simp at hv

theorem isDigitCh_bounds (c : Char) (h : isDigitCh c = true) :
    48 ≤ c.toNat ∧ c.toNat ≤ 57 := by
  simpa [isDigitCh] using h

theorem isDigitCh_facts (c : Char) (h : isDigitCh c = true) :
    wsChar c = false ∧ c ≠ '"' ∧ c ≠ '[' ∧ c ≠ '{' ∧ c ≠ 't' ∧ c ≠ 'f' ∧
      c ≠ 'n' ∧ c ≠ '-' ∧ c ≠ ']' ∧ c ≠ '}' ∧ c ≠ ',' ∧ c ≠ ':' ∧
      c ≠ '.' ∧ c ≠ 'e' ∧ c ≠ 'E' := by
  have hb := isDigitCh_bounds c h
  refine ⟨?_, ?_, ?_, ?_, ?_, ?_, ?_, ?_, ?_, ?_, ?_, ?_, ?_, ?_, ?_⟩
  · cases hw : wsChar c with
    | false => rfl
    | true => exact absurd hb (by rcases wsChar_vals c hw with h'|h'|h'|h' <;> omega)
  all_goals intro heq
  all_goals subst heq
  all_goals exact absurd hb (by decide)

theorem digitChar_toNat : ∀ d, d < 10 → (digitChar d).toNat = 48 + d := by decide

theorem digitChar_isDigit : ∀ d, d < 10 → isDigitCh (digitChar d) = true := by decide

theorem hexVal_hexChar : ∀ d, d < 16 → hexVal (hexChar d) = some d := by decide

theorem renderNat_digits (n : Nat) : ∀ c ∈ renderNat n, isDigitCh c = true := by
  induction n using Nat.strong_induction_on with
  | _ n ih =>
    rw [renderNat]
    split
    · rename_i h
      intro c hc
      rw [List.mem_singleton.mp hc]
      exact digitChar_isDigit n h
    · rename_i h
      intro c hc
      rcases List.mem_append.mp hc with hc' | hc'
      · exact ih (n / 10) (Nat.div_lt_self (by omega) (by omega)) c hc'
      · rw [List.mem_singleton.mp hc']
        exact digitChar_isDigit (n % 10) (Nat.mod_lt _ (by omega))

theorem renderNat_cons (n : Nat) :
    ∃ c t, renderNat n = c :: t ∧ isDigitCh c = true := by
  induction n using Nat.strong_induction_on with
  | _ n ih =>
    rw [renderNat]
    split
    · rename_i h
      exact ⟨digitChar n, [], rfl, digitChar_isDigit n h⟩
    · rename_i h
      obtain ⟨c, t, hct, hd⟩ := ih (n / 10) (Nat.div_lt_self (by omega) (by omega))
      rw [hct]
      exact ⟨c, t ++ [digitChar (n % 10)], by simp, hd⟩

theorem parseDigits_of_all (a : Str) (h : ∀ c ∈ a, isDigitCh c = true) :
    ∀ (rest : Str) (acc : Nat),
      parseDigits (a ++ rest) acc =
        parseDigits rest (a.foldl (fun x c => x * 10 + (c.toNat - 48)) acc) := by
  induction a with
  | nil => intro rest acc; rfl
  | cons c cs ih =>
    intro rest acc
    rw [List.cons_append, parseDigits, if_pos (h c (List.mem_cons_self _ _))]
    rw [ih (fun x hx => h x (List.mem_cons_of_mem _ hx)) rest]
    rfl

theorem parseDigits_stop (rest : Str) (acc : Nat)
    (h : ∀ c t, rest = c :: t → isDigitCh c = false) :
    parseDigits rest acc = (acc, rest) := by
  cases rest with
  | nil => rfl
  | cons c t => rw [parseDigits, if_neg (by simp [h c t rfl])]

theorem foldl_renderNat (n : Nat) : ∀ acc : Nat,
    (renderNat n).foldl (fun x c => x * 10 + (c.toNat - 48)) acc =
      acc * 10 ^ (renderNat n).length + n := by
  induction n using Nat.strong_induction_on with
  | _ n ih =>
    intro acc
    rw [renderNat]
    split
    · rename_i h
      have hd : (digitChar n).toNat - 48 = n := by
        rw [digitChar_toNat n h]; omega
      simp [List.foldl, hd]
    · rename_i h
      rw [List.foldl_append, List.length_append]
      rw [ih (n / 10) (Nat.div_lt_self (by omega) (by omega)) acc]
      have hd : (digitChar (n % 10)).toNat - 48 = n % 10 := by
        rw [digitChar_toNat (n % 10) (Nat.mod_lt _ (by omega))]; omega
      simp only [List.foldl_cons, List.foldl_nil, List.length_singleton, hd]
      have key : (acc * 10 ^ (renderNat (n / 10)).length + n / 10) * 10 + n % 10 =
          acc * (10 ^ (renderNat (n / 10)).length * 10) +
            (n / 10 * 10 + n % 10) := by ring
      rw [key, ← pow_succ]
      congr 1
      omega

theorem parseNat_digits (n : Nat) (rest : Str)
    (hstop : ∀ c t, rest = c :: t → isDigitCh c = false) :
    parseDigits (renderNat n ++ rest) 0 = (n, rest) := by
  rw [parseDigits_of_all _ (renderNat_digits n) rest 0,
    parseDigits_stop rest _ hstop, foldl_renderNat n 0]
  simp

theorem noFloatNext_of_stop (rest : Str) (h : numStop rest) :
    noFloatNext rest = true := by
  cases rest with
  | nil => rfl
  | cons c t =>
    obtain ⟨_, h1, h2, h3⟩ := h c t rfl
    simp [noFloatNext, h1, h2, h3]

theorem parseIntTok_cons (c : Char) (rest : Str) :
    parseIntTok (c :: rest) =
      if c = '-' then
        (match rest with
         | [] => none
         | c2 :: rest2 => (parseNatTok c2 rest2).map (fun p => (-(p.1 : Int), p.2)))
      else (parseNatTok c rest).map (fun p => ((p.1 : Int), p.2)) := by
  rw [parseIntTok.eq_def]
  rfl

theorem parseNatTok_render (m : Nat) (rest : Str) (hstop : numStop rest) :
    ∀ c t, renderNat m = c :: t → parseNatTok c (t ++ rest) = some (m, rest) := by
  intro c t hct
  have hd : isDigitCh c = true :=
    renderNat_digits m c (hct ▸ List.mem_cons_self c t)
  have hpd : parseDigits (c :: (t ++ rest)) 0 = (m, rest) := by
    rw [← List.cons_append, ← hct]
    exact parseNat_digits m rest (fun c t h => (hstop c t h).1)
  unfold parseNatTok
  rw [if_pos hd, hpd, noFloatNext_of_stop rest hstop, if_pos rfl]

theorem parseIntTok_renderInt (n : Int) (rest : Str) (hstop : numStop rest) :
    parseIntTok (renderInt n ++ rest) = some (n, rest) := by
  by_cases hn : n < 0
  · rw [renderInt, if_pos hn]
    obtain ⟨c, t, hct, hd⟩ := renderNat_cons (-n).toNat
    rw [List.cons_append, hct, List.cons_append, parseIntTok_cons, if_pos rfl]
    show (parseNatTok c (t ++ rest)).map (fun p => (-(p.1 : Int), p.2)) =
      some (n, rest)
    rw [parseNatTok_render (-n).toNat rest hstop c t hct]
    have hcast : (((-n).toNat : Int)) = -n := Int.toNat_of_nonneg (by omega)
    simp [hcast]
  · rw [renderInt, if_neg hn]
    obtain ⟨c, t, hct, hd⟩ := renderNat_cons n.toNat
    obtain ⟨_, _, _, _, _, _, _, hdash, _⟩ := isDigitCh_facts c hd
    rw [hct, List.cons_append, parseIntTok_cons, if_neg hdash,
      parseNatTok_render n.toNat rest hstop c t hct]
    rw [Option.map_some']
    rw [Int.toNat_of_nonneg (by omega)]

theorem hexVal4_apply (a b c d : Char) (x y z w : Nat)
    (ea : hexVal a = some x) (eb : hexVal b = some y)
    (ec : hexVal c = some z) (ed : hexVal d = some w) :
    hexVal4 a b c d = some (((x * 16 + y) * 16 + z) * 16 + w) := by
  unfold hexVal4
  rw [ea, eb, ec, ed]

theorem psb_plain (c : Char) (X : Str) (h1 : ¬ c = '"') (h2 : ¬ c = '\\')
    (h3 : ¬ c.toNat < 32) :
    parseStringBody (c :: X) =
      (parseStringBody X).map (fun p => (c :: p.1, p.2)) := by
  conv_lhs => rw [parseStringBody.eq_def]
  show (if c = '"' then some ([], X)
    else if c = '\\' then _
    else if c.toNat < 32 then none
    else (parseStringBody X).map (fun p : Str × Str => (c :: p.1, p.2))) =
    (parseStringBody X).map (fun p => (c :: p.1, p.2))
  rw [if_neg h1, if_neg h2, if_neg h3]

theorem psb_u (x y : Char) (X : Str) (a b : Nat)
    (ex : hexVal x = some a) (ey : hexVal y = some b)
    (hv : (((0 * 16 + 0) * 16 + a) * 16 + b).isValidChar) :
    parseStringBody ('\\' :: 'u' :: '0' :: '0' :: x :: y :: X) =
      (parseStringBody X).map
        (fun p => (Char.ofNat (((0 * 16 + 0) * 16 + a) * 16 + b) :: p.1, p.2)) := by
  have e0 : hexVal '0' = some 0 := by decide
  have h4 := hexVal4_apply '0' '0' x y 0 0 a b e0 e0 ex ey
  conv_lhs => rw [parseStringBody.eq_def]
  show (match hexVal4 '0' '0' x y with
        | some n =>
          if n.isValidChar then
            (parseStringBody X).map (fun p : Str × Str => (Char.ofNat n :: p.1, p.2))
          else none
        | none => none) = _
  rw [h4]
  show (if (((0 * 16 + 0) * 16 + a) * 16 + b).isValidChar then
          (parseStringBody X).map
            (fun p : Str × Str => (Char.ofNat (((0 * 16 + 0) * 16 + a) * 16 + b) :: p.1, p.2))
        else none) = _
  rw [if_pos hv]

theorem psb_quote (X : Str) : parseStringBody ('"' :: X) = some ([], X) := by
  conv_lhs => rw [parseStringBody.eq_def]
  rfl

theorem psb_eq (X : Str) : parseStringBody ('\\' :: '"' :: X) =
    (parseStringBody X).map (fun p => ('"' :: p.1, p.2)) := by
  conv_lhs => rw [parseStringBody.eq_def]
  rfl

theorem psb_ebs (X : Str) : parseStringBody ('\\' :: '\\' :: X) =
    (parseStringBody X).map (fun p => ('\\' :: p.1, p.2)) := by
  conv_lhs => rw [parseStringBody.eq_def]
  rfl

theorem psb_en (X : Str) : parseStringBody ('\\' :: 'n' :: X) =
    (parseStringBody X).map (fun p => ('\n' :: p.1, p.2)) := by
  conv_lhs => rw [parseStringBody.eq_def]
  rfl

theorem psb_et (X : Str) : parseStringBody ('\\' :: 't' :: X) =
    (parseStringBody X).map (fun p => ('\t' :: p.1, p.2)) := by
  conv_lhs => rw [parseStringBody.eq_def]
  rfl

theorem psb_er (X : Str) : parseStringBody ('\\' :: 'r' :: X) =
    (parseStringBody X).map (fun p => ('\r' :: p.1, p.2)) := by
  conv_lhs => rw [parseStringBody.eq_def]
  rfl

theorem psb_eb (X : Str) : parseStringBody ('\\' :: 'b' :: X) =
    (parseStringBody X).map (fun p => (Char.ofNat 8 :: p.1, p.2)) := by
  conv_lhs => rw [parseStringBody.eq_def]
  rfl

theorem psb_ef (X : Str) : parseStringBody ('\\' :: 'f' :: X) =
    (parseStringBody X).map (fun p => (Char.ofNat 12 :: p.1, p.2)) := by
  conv_lhs => rw [parseStringBody.eq_def]
  rfl

theorem parseStringBody_escape (s : Str) : ∀ rest : Str,
    parseStringBody (escapeStr s ++ '"' :: rest) = some (s, rest) := by
  induction s with
  | nil =>
    intro rest
    rw [escapeStr, List.nil_append, psb_quote]
  | cons c cs ih =>
    intro rest
    rw [escapeStr, escChar]
    split_ifs with h1 h2 h3 h4 h5 h6 h7 h8
    · subst h1
      simp only [List.cons_append, List.nil_append]
      rw [psb_eq, ih rest]
      rfl
    · subst h2
      simp only [List.cons_append, List.nil_append]
      rw [psb_ebs, ih rest]
      rfl
    · subst h3
      simp only [List.cons_append, List.nil_append]
      rw [psb_en, ih rest]
      rfl
    · subst h4
      simp only [List.cons_append, List.nil_append]
      rw [psb_et, ih rest]
      rfl
    · subst h5
      simp only [List.cons_append, List.nil_append]
      rw [psb_er, ih rest]
      rfl
    · simp only [List.cons_append, List.nil_append]
      rw [psb_eb, ih rest]
      rw [show Char.ofNat 8 = c by rw [← h6, Char.ofNat_toNat]]
      rfl
    · simp only [List.cons_append, List.nil_append]
      rw [psb_ef, ih rest]
      rw [show Char.ofNat 12 = c by rw [← h7, Char.ofNat_toNat]]
      rfl
    · simp only [List.cons_append, List.nil_append]
      have hv : (((0 * 16 + 0) * 16 + c.toNat / 16) * 16 + c.toNat % 16).isValidChar := by
        have harith : ((0 * 16 + 0) * 16 + c.toNat / 16) * 16 + c.toNat % 16 =
            c.toNat := by omega
        rw [harith]
        exact Or.inl (by omega)
      rw [psb_u (hexChar (c.toNat / 16)) (hexChar (c.toNat % 16))
            (escapeStr cs ++ '"' :: rest) (c.toNat / 16) (c.toNat % 16)
            (hexVal_hexChar _ (by omega)) (hexVal_hexChar _ (by omega)) hv,
          ih rest,
          show ((0 * 16 + 0) * 16 + c.toNat / 16) * 16 + c.toNat % 16 = c.toNat
            by omega,
          Char.ofNat_toNat]
      rfl
    · simp only [List.cons_append, List.nil_append]
      rw [psb_plain c (escapeStr cs ++ '"' :: rest) h1 h2 h8, ih rest]
      rfl

/-! ### C8 support: parser unfolding and head-character lemmas -/

theorem parseVal_succ (m : Nat) (s : Str) :
    parseVal (m + 1) s =
      (match skipWs s with
       | [] => none
       | c :: rest =>
         if c = '"' then (parseStringBody rest).map (fun p => (Json.str p.1, p.2))
         else if c = '[' then
           match skipWs rest with
           | [] => none
           | c2 :: r1 =>
             if c2 = ']' then some (Json.arr [], r1)
             else (parseArrItems m (c2 :: r1)).map (fun p => (Json.arr p.1, p.2))
         else if c = '{' then
           match skipWs rest with
           | [] => none
           | c2 :: r1 =>
             if c2 = '}' then some (Json.obj [], r1)
             else (parseObjItems m (c2 :: r1)).map (fun p => (Json.obj p.1, p.2))
         else if c = 't' then
           match rest with
           | 'r' :: 'u' :: 'e' :: r => some (Json.bool true, r)
           | _ => none
         else if c = 'f' then
           match rest with
           | 'a' :: 'l' :: 's' :: 'e' :: r => some (Json.bool false, r)
           | _ => none
         else if c = 'n' then
           match rest with
           | 'u' :: 'l' :: 'l' :: r => some (Json.null, r)
           | _ => none
         else (parseIntTok (c :: rest)).map (fun p => (Json.num p.1, p.2))) := rfl

theorem parseArrItems_succ (m : Nat) (s : Str) :
    parseArrItems (m + 1) s =
      (match parseVal m s with
       | none => none
       | some (v, r) =>
         match skipWs r with
         | [] => none
         | c2 :: r2 =>
           if c2 = ',' then (parseArrItems m r2).map (fun p => (v :: p.1, p.2))
           else if c2 = ']' then some ([v], r2)
           else none) := rfl

theorem parseObjItems_succ (m : Nat) (s : Str) :
    parseObjItems (m + 1) s =
      (match skipWs s with
       | [] => none
       | c0 :: r0 =>
         if c0 = '"' then
           match parseStringBody r0 with
           | none => none
           | some (k, r1) =>
             match skipWs r1 with
             | [] => none
             | c1 :: r2 =>
               if c1 = ':' then
                 match parseVal m r2 with
                 | none => none
                 | some (v, r3) =>
                   match skipWs r3 with
                   | [] => none
                   | c2 :: r4 =>
                     if c2 = ',' then
                       (parseObjItems m r4).map (fun p => ((k, v) :: p.1, p.2))
                     else if c2 = '}' then some ([(k, v)], r4)
                     else none
               else none
         else none) := rfl

theorem renderInt_head (n : Int) :
    ∃ c t, renderInt n = c :: t ∧ wsChar c = false ∧ c ≠ '"' ∧ c ≠ '[' ∧
      c ≠ '{' ∧ c ≠ 't' ∧ c ≠ 'f' ∧ c ≠ 'n' ∧ c ≠ ']' ∧ c ≠ '}' ∧ c ≠ ',' := by
  rw [renderInt]
  by_cases hn : n < 0
  · rw [if_pos hn]
    exact ⟨'-', _, rfl, by decide, by decide, by decide, by decide, by decide,
      by decide, by decide, by decide, by decide, by decide⟩
  · rw [if_neg hn]
    obtain ⟨c, t, hct, hd⟩ := renderNat_cons n.toNat
    obtain ⟨hws, hq, hlb, hlc, ht', hf, hn', _, hrb, hrc, hcm, _⟩ :=
      isDigitCh_facts c hd
    exact ⟨c, t, hct, hws, hq, hlb, hlc, ht', hf, hn', hrb, hrc, hcm⟩

theorem renderJson_head (v : Json) (l : Nat) :
    ∃ c t, renderJson v l = c :: t ∧ wsChar c = false ∧ c ≠ ']' ∧
      c ≠ '}' ∧ c ≠ ',' := by
  cases v with
  | str s => exact ⟨'"', _, rfl, by decide, by decide, by decide, by decide⟩
  | num n =>
    obtain ⟨c, t, hct, hws, _, _, _, _, _, _, hrb, hrc, hcm⟩ := renderInt_head n
    exact ⟨c, t, by rw [renderJson]; exact hct, hws, hrb, hrc, hcm⟩
  | bool b =>
    cases b with
    | true => exact ⟨'t', _, rfl, by decide, by decide, by decide, by decide⟩
    | false => exact ⟨'f', _, rfl, by decide, by decide, by decide, by decide⟩
  | null => exact ⟨'n', _, rfl, by decide, by decide, by decide, by decide⟩
  | arr xs =>
    cases xs with
    | nil => exact ⟨'[', _, rfl, by decide, by decide, by decide, by decide⟩
    | cons x xs' =>
      refine ⟨'[', ('\n' :: indentStr (l + 1) ++ renderJson x (l + 1)) ++
        renderArrTail xs' (l + 1) ++ '\n' :: indentStr l ++ [']'],
        ?_, by decide, by decide, by decide, by decide⟩
      rw [renderJson]
      rfl
  | obj kvs =>
    cases kvs with
    | nil => exact ⟨'{', _, rfl, by decide, by decide, by decide, by decide⟩
    | cons kv kvs' =>
      refine ⟨'{', ('\n' :: indentStr (l + 1) ++ renderKV kv (l + 1)) ++
        renderObjTail kvs' (l + 1) ++ '\n' :: indentStr l ++ ['}'],
        ?_, by decide, by decide, by decide, by decide⟩
      rw [renderJson]
      rfl

theorem fuelFor_pos (v : Json) : 1 ≤ fuelFor v := by
  cases v <;> simp [fuelFor]

theorem numStop_head (c : Char) (t : Str)
    (h : isDigitCh c = false ∧ c ≠ '.' ∧ c ≠ 'e' ∧ c ≠ 'E') :
    numStop (c :: t) := by
  intro c' t' hct
  injection hct with h1 _
  subst h1
  exact h

theorem numStop_wsClose (ws1 : Str) (hw : wsOnly ws1) (d : Char) (rest : Str)
    (hd : isDigitCh d = false ∧ d ≠ '.' ∧ d ≠ 'e' ∧ d ≠ 'E') :
    numStop (ws1 ++ d :: rest) := by
  induction ws1 with
  | nil =>
    rw [List.nil_append]
    exact numStop_head d rest hd
  | cons w ws' ih =>
    intro c' t' hct
    rw [List.cons_append] at hct
    injection hct with h1 _
    subst h1
    exact wsChar_stop _ (hw _ (List.mem_cons_self _ _))

theorem numStop_arrTail (xs : List Json) (l : Nat) (ws1 rest : Str)
    (hw : wsOnly ws1) :
    numStop (renderArrTail xs l ++ (ws1 ++ ']' :: rest)) := by
  cases xs with
  | nil =>
    rw [renderArrTail, List.nil_append]
    exact numStop_wsClose ws1 hw ']' rest (by decide)
  | cons x xs' =>
    rw [renderArrTail]
    intro c' t' hct
    simp only [List.cons_append] at hct
    injection hct with h1 _
    subst h1
    decide

theorem numStop_objTail (kvs : List (Str × Json)) (l : Nat) (ws1 rest : Str)
    (hw : wsOnly ws1) :
    numStop (renderObjTail kvs l ++ (ws1 ++ '}' :: rest)) := by
  cases kvs with
  | nil =>
    rw [renderObjTail, List.nil_append]
    exact numStop_wsClose ws1 hw '}' rest (by decide)
  | cons kv kvs' =>
    rw [renderObjTail]
    intro c' t' hct
    simp only [List.cons_append] at hct
    injection hct with h1 _
    subst h1
    decide

theorem wsOnly_nil : wsOnly [] := by
  intro c hc
  exact absurd hc (List.not_mem_nil c)

theorem wsOnly_space : wsOnly [' '] := by
  intro c hc
  rw [List.mem_singleton.mp hc]
  rfl

theorem parse_render_all : ∀ fuel : Nat,
    (∀ (v : Json) (l : Nat) (ws rest : Str), fuelFor v ≤ fuel → wsOnly ws →
      numStop rest →
      parseVal fuel (ws ++ (renderJson v l ++ rest)) = some (v, rest)) ∧
    (∀ (x : Json) (xs : List Json) (l : Nat) (ws0 ws1 rest : Str),
      fuelItems (x :: xs) ≤ fuel → wsOnly ws0 → wsOnly ws1 →
      parseArrItems fuel
        (ws0 ++ (renderJson x l ++ (renderArrTail xs l ++ (ws1 ++ ']' :: rest)))) =
        some (x :: xs, rest)) ∧
    (∀ (k : Str) (v : Json) (kvs : List (Str × Json)) (l : Nat) (ws0 ws1 rest : Str),
      fuelKVs ((k, v) :: kvs) ≤ fuel → wsOnly ws0 → wsOnly ws1 →
      parseObjItems fuel
        (ws0 ++ (renderKV (k, v) l ++ (renderObjTail kvs l ++ (ws1 ++ '}' :: rest)))) =
        some ((k, v) :: kvs, rest)) := by
  intro fuel
  induction fuel using Nat.strong_induction_on with
  | _ fuel ih =>
    refine ⟨?_, ?_, ?_⟩
    · intro v l ws rest hfuel hws hstop
      cases fuel with
      | zero => exact absurd hfuel (by have := fuelFor_pos v; omega)
      | succ m =>
        cases v with
        | str s0 =>
          rw [renderJson]
          simp only [List.cons_append, List.append_assoc, List.singleton_append]
          rw [parseVal_succ, skipWs_append _ _ hws,
            skipWs_cons_of_not _ _ (by decide)]
          show (parseStringBody (escapeStr s0 ++ '"' :: rest)).map
              (fun p : Str × Str => (Json.str p.1, p.2)) = some (Json.str s0, rest)
          rw [parseStringBody_escape s0 rest]
          rfl
        | num n =>
          rw [renderJson]
          obtain ⟨c0, t0, hrend, hws0, hq, hlb, hlc, ht', hf, hn', _, _, _⟩ :=
            renderInt_head n
          rw [hrend]
          simp only [List.cons_append]
          rw [parseVal_succ, skipWs_append _ _ hws, skipWs_cons_of_not _ _ hws0]
          show (if c0 = '"' then _ else if c0 = '[' then _ else if c0 = '{' then _
            else if c0 = 't' then _ else if c0 = 'f' then _ else if c0 = 'n' then _
            else (parseIntTok (c0 :: (t0 ++ rest))).map
              (fun p : Int × Str => (Json.num p.1, p.2))) = some (Json.num n, rest)
          rw [if_neg hq, if_neg hlb, if_neg hlc, if_neg ht', if_neg hf, if_neg hn']
          rw [show c0 :: (t0 ++ rest) = renderInt n ++ rest by
            rw [hrend, List.cons_append]]
          rw [parseIntTok_renderInt n rest hstop]
          rfl
        | bool b =>
          cases b with
          | true =>
            rw [renderJson]
            rw [show lc "true" = 't' :: 'r' :: 'u' :: 'e' :: [] from rfl]
            simp only [List.cons_append, List.nil_append]
            rw [parseVal_succ, skipWs_append _ _ hws,
              skipWs_cons_of_not _ _ (by decide)]
            rfl
          | false =>
            rw [renderJson]
            rw [show lc "false" = 'f' :: 'a' :: 'l' :: 's' :: 'e' :: [] from rfl]
            simp only [List.cons_append, List.nil_append]
            rw [parseVal_succ, skipWs_append _ _ hws,
              skipWs_cons_of_not _ _ (by decide)]
            rfl
        | null =>
          rw [renderJson]
          rw [show lc "null" = 'n' :: 'u' :: 'l' :: 'l' :: [] from rfl]
          simp only [List.cons_append, List.nil_append]
          rw [parseVal_succ, skipWs_append _ _ hws,
            skipWs_cons_of_not _ _ (by decide)]
          rfl
        | arr xs =>
          cases xs with
          | nil =>
            rw [renderJson]
            simp only [List.cons_append, List.nil_append]
            rw [parseVal_succ, skipWs_append _ _ hws,
              skipWs_cons_of_not _ _ (by decide)]
            rfl
          | cons x xs' =>
            rw [renderJson]
            simp only [List.cons_append, List.append_assoc, List.singleton_append]
            rw [parseVal_succ, skipWs_append _ _ hws,
              skipWs_cons_of_not _ _ (by decide)]
            show (match skipWs ('\n' :: (indentStr (l + 1) ++ (renderJson x (l + 1) ++
                  (renderArrTail xs' (l + 1) ++
                    ('\n' :: (indentStr l ++ (']' :: rest))))))) with
              | [] => none
              | c2 :: r1 =>
                if c2 = ']' then some (Json.arr [], r1)
                else (parseArrItems m (c2 :: r1)).map
                  (fun p : List Json × Str => (Json.arr p.1, p.2))) =
              some (Json.arr (x :: xs'), rest)
            obtain ⟨c1, t1, hrx, hc1ws, hc1rb, _, _⟩ := renderJson_head x (l + 1)
            rw [show ('\n' :: (indentStr (l + 1) ++ (renderJson x (l + 1) ++
                  (renderArrTail xs' (l + 1) ++
                    ('\n' :: (indentStr l ++ (']' :: rest))))))) =
                ('\n' :: indentStr (l + 1)) ++ (renderJson x (l + 1) ++
                  (renderArrTail xs' (l + 1) ++
                    ('\n' :: (indentStr l ++ (']' :: rest))))) from rfl]
            rw [skipWs_append _ _ (wsOnly_cons_indent (l + 1)), hrx,
              List.cons_append, skipWs_cons_of_not _ _ hc1ws]
            show (if c1 = ']' then
                some (Json.arr [], t1 ++ (renderArrTail xs' (l + 1) ++
                  ('\n' :: (indentStr l ++ (']' :: rest)))))
              else (parseArrItems m (c1 :: (t1 ++ (renderArrTail xs' (l + 1) ++
                  ('\n' :: (indentStr l ++ (']' :: rest))))))).map
                (fun p : List Json × Str => (Json.arr p.1, p.2))) =
              some (Json.arr (x :: xs'), rest)
            rw [if_neg hc1rb]
            rw [show c1 :: (t1 ++ (renderArrTail xs' (l + 1) ++
                  ('\n' :: (indentStr l ++ (']' :: rest))))) =
                renderJson x (l + 1) ++ (renderArrTail xs' (l + 1) ++
                  (('\n' :: indentStr l) ++ (']' :: rest))) by
              rw [hrx]
              simp only [List.cons_append]]
            have hfa : fuelItems (x :: xs') ≤ m := by
              simp only [fuelFor] at hfuel
              omega
            have hA := (ih m (by omega)).2.1 x xs' (l + 1) []
              ('\n' :: indentStr l) rest hfa wsOnly_nil (wsOnly_cons_indent l)
            rw [List.nil_append] at hA
            rw [hA]
            rfl
        | obj kvs =>
          cases kvs with
          | nil =>
            rw [renderJson]
            simp only [List.cons_append, List.nil_append]
            rw [parseVal_succ, skipWs_append _ _ hws,
              skipWs_cons_of_not _ _ (by decide)]
            rfl
          | cons kv kvs' =>
            obtain ⟨k, v0⟩ := kv
            rw [renderJson]
            simp only [List.cons_append, List.append_assoc, List.singleton_append]
            rw [parseVal_succ, skipWs_append _ _ hws,
              skipWs_cons_of_not _ _ (by decide)]
            show (match skipWs ('\n' :: (indentStr (l + 1) ++ (renderKV (k, v0) (l + 1) ++
                  (renderObjTail kvs' (l + 1) ++
                    ('\n' :: (indentStr l ++ ('}' :: rest))))))) with
              | [] => none
              | c2 :: r1 =>
                if c2 = '}' then some (Json.obj [], r1)
                else (parseObjItems m (c2 :: r1)).map
                  (fun p : List (Str × Json) × Str => (Json.obj p.1, p.2))) =
              some (Json.obj ((k, v0) :: kvs'), rest)
            rw [show ('\n' :: (indentStr (l + 1) ++ (renderKV (k, v0) (l + 1) ++
                  (renderObjTail kvs' (l + 1) ++
                    ('\n' :: (indentStr l ++ ('}' :: rest))))))) =
                ('\n' :: indentStr (l + 1)) ++ (renderKV (k, v0) (l + 1) ++
                  (renderObjTail kvs' (l + 1) ++
                    ('\n' :: (indentStr l ++ ('}' :: rest))))) from rfl]
            rw [skipWs_append _ _ (wsOnly_cons_indent (l + 1))]
            rw [show renderKV (k, v0) (l + 1) ++ (renderObjTail kvs' (l + 1) ++
                  ('\n' :: (indentStr l ++ ('}' :: rest)))) =
                '"' :: (escapeStr k ++ ('"' :: ':' :: ' ' :: renderJson v0 (l + 1)) ++
                  (renderObjTail kvs' (l + 1) ++
                    ('\n' :: (indentStr l ++ ('}' :: rest))))) by
              rw [renderKV]
              simp only [List.cons_append, List.append_assoc]]
            rw [skipWs_cons_of_not _ _ (by decide)]
            show (if ('"' : Char) = '}' then _
              else (parseObjItems m ('"' :: (escapeStr k ++
                  ('"' :: ':' :: ' ' :: renderJson v0 (l + 1)) ++
                  (renderObjTail kvs' (l + 1) ++
                    ('\n' :: (indentStr l ++ ('}' :: rest))))))).map
                (fun p : List (Str × Json) × Str => (Json.obj p.1, p.2))) =
              some (Json.obj ((k, v0) :: kvs'), rest)
            rw [if_neg (by decide)]
            have hfo : fuelKVs ((k, v0) :: kvs') ≤ m := by
              simp only [fuelFor] at hfuel
              omega
            have hO := (ih m (by omega)).2.2 k v0 kvs' (l + 1) []
              ('\n' :: indentStr l) rest hfo wsOnly_nil (wsOnly_cons_indent l)
            rw [List.nil_append] at hO
            rw [show ('"' :: (escapeStr k ++
                  ('"' :: ':' :: ' ' :: renderJson v0 (l + 1)) ++
                  (renderObjTail kvs' (l + 1) ++
                    ('\n' :: (indentStr l ++ ('}' :: rest)))))) =
                renderKV (k, v0) (l + 1) ++ (renderObjTail kvs' (l + 1) ++
                  (('\n' :: indentStr l) ++ ('}' :: rest))) by
              rw [renderKV]
              simp only [List.cons_append, List.append_assoc]]
            rw [hO]
            rfl
    · intro x xs l ws0 ws1 rest hfuel hws0 hws1
      cases fuel with
      | zero =>
        exact absurd hfuel (by simp only [fuelItems]; omega)
      | succ m =>
        rw [parseArrItems_succ]
        have hfx : fuelFor x ≤ m := by
          simp only [fuelItems] at hfuel
          omega
        have hV := (ih m (by omega)).1 x l ws0
          (renderArrTail xs l ++ (ws1 ++ ']' :: rest)) hfx hws0
          (numStop_arrTail xs l ws1 rest hws1)
        rw [hV]
        cases xs with
        | nil =>
          show (match skipWs (renderArrTail [] l ++ (ws1 ++ ']' :: rest)) with
            | [] => none
            | c2 :: r2 =>
              if c2 = ',' then (parseArrItems m r2).map
                (fun p : List Json × Str => (x :: p.1, p.2))
              else if c2 = ']' then some ([x], r2)
              else none) = some ([x], rest)
          rw [show renderArrTail [] l ++ (ws1 ++ ']' :: rest) =
              ws1 ++ ']' :: rest by rw [renderArrTail, List.nil_append]]
          rw [skipWs_append _ _ hws1, skipWs_cons_of_not _ _ (by decide)]
          rfl
        | cons x2 xs2 =>
          show (match skipWs (renderArrTail (x2 :: xs2) l ++ (ws1 ++ ']' :: rest)) with
            | [] => none
            | c2 :: r2 =>
              if c2 = ',' then (parseArrItems m r2).map
                (fun p : List Json × Str => (x :: p.1, p.2))
              else if c2 = ']' then some ([x], r2)
              else none) = some (x :: x2 :: xs2, rest)
          rw [show renderArrTail (x2 :: xs2) l ++ (ws1 ++ ']' :: rest) =
              ',' :: ('\n' :: (indentStr l ++ (renderJson x2 l ++
                (renderArrTail xs2 l ++ (ws1 ++ ']' :: rest))))) by
            rw [renderArrTail]
            simp only [List.cons_append, List.append_assoc]]
          rw [skipWs_cons_of_not _ _ (by decide)]
          show (parseArrItems m ('\n' :: (indentStr l ++ (renderJson x2 l ++
              (renderArrTail xs2 l ++ (ws1 ++ ']' :: rest)))))).map
              (fun p : List Json × Str => (x :: p.1, p.2)) =
            some (x :: x2 :: xs2, rest)
          have hfa2 : fuelItems (x2 :: xs2) ≤ m := by
            simp only [fuelItems] at hfuel ⊢
            omega
          have hA2 := (ih m (by omega)).2.1 x2 xs2 l ('\n' :: indentStr l) ws1
            rest hfa2 (wsOnly_cons_indent l) hws1
          rw [show ('\n' :: (indentStr l ++ (renderJson x2 l ++
                (renderArrTail xs2 l ++ (ws1 ++ ']' :: rest))))) =
              ('\n' :: indentStr l) ++ (renderJson x2 l ++
                (renderArrTail xs2 l ++ (ws1 ++ ']' :: rest))) from rfl]
          rw [hA2]
          rfl
    · intro k v kvs l ws0 ws1 rest hfuel hws0 hws1
      cases fuel with
      | zero =>
        exact absurd hfuel (by simp only [fuelKVs]; omega)
      | succ m =>
        rw [parseObjItems_succ]
        rw [show ws0 ++ (renderKV (k, v) l ++ (renderObjTail kvs l ++
              (ws1 ++ '}' :: rest))) =
            ws0 ++ ('"' :: (escapeStr k ++ ('"' :: ':' :: ' ' ::
              (renderJson v l ++ (renderObjTail kvs l ++
                (ws1 ++ '}' :: rest)))))) by
          rw [renderKV]
          simp only [List.cons_append, List.append_assoc]]
        rw [skipWs_append _ _ hws0, skipWs_cons_of_not _ _ (by decide)]
        show (match parseStringBody (escapeStr k ++ ('"' :: ':' :: ' ' ::
              (renderJson v l ++ (renderObjTail kvs l ++
                (ws1 ++ '}' :: rest))))) with
          | none => none
          | some (k', r1) =>
            match skipWs r1 with
            | [] => none
            | c1 :: r2 =>
              if c1 = ':' then
                match parseVal m r2 with
                | none => none
                | some (v', r3) =>
                  match skipWs r3 with
                  | [] => none
                  | c2 :: r4 =>
                    if c2 = ',' then
                      (parseObjItems m r4).map
                        (fun p : List (Str × Json) × Str => ((k', v') :: p.1, p.2))
                    else if c2 = '}' then some ([(k', v')], r4)
                    else none
              else none) = some ((k, v) :: kvs, rest)
        rw [parseStringBody_escape k (':' :: ' ' :: (renderJson v l ++
          (renderObjTail kvs l ++ (ws1 ++ '}' :: rest))))]
        show (match skipWs (':' :: ' ' :: (renderJson v l ++
              (renderObjTail kvs l ++ (ws1 ++ '}' :: rest)))) with
          | [] => none
          | c1 :: r2 =>
            if c1 = ':' then
              match parseVal m r2 with
              | none => none
              | some (v', r3) =>
                match skipWs r3 with
                | [] => none
                | c2 :: r4 =>
                  if c2 = ',' then
                    (parseObjItems m r4).map
                      (fun p : List (Str × Json) × Str => ((k, v') :: p.1, p.2))
                  else if c2 = '}' then some ([(k, v')], r4)
                  else none
            else none) = some ((k, v) :: kvs, rest)
        rw [skipWs_cons_of_not _ _ (by decide)]
        show (match parseVal m (' ' :: (renderJson v l ++
              (renderObjTail kvs l ++ (ws1 ++ '}' :: rest)))) with
          | none => none
          | some (v', r3) =>
            match skipWs r3 with
            | [] => none
            | c2 :: r4 =>
              if c2 = ',' then
                (parseObjItems m r4).map
                  (fun p : List (Str × Json) × Str => ((k, v') :: p.1, p.2))
              else if c2 = '}' then some ([(k, v')], r4)
              else none) = some ((k, v) :: kvs, rest)
        have hfv : fuelFor v ≤ m := by
          simp only [fuelKVs] at hfuel
          omega
        have hV := (ih m (by omega)).1 v l [' ']
          (renderObjTail kvs l ++ (ws1 ++ '}' :: rest)) hfv wsOnly_space
          (numStop_objTail kvs l ws1 rest hws1)
        rw [show (' ' :: (renderJson v l ++ (renderObjTail kvs l ++
              (ws1 ++ '}' :: rest)))) =
            [' '] ++ (renderJson v l ++ (renderObjTail kvs l ++
              (ws1 ++ '}' :: rest))) from rfl]
        rw [hV]
        cases kvs with
        | nil =>
          show (match skipWs (renderObjTail [] l ++ (ws1 ++ '}' :: rest)) with
            | [] => none
            | c2 :: r4 =>
              if c2 = ',' then
                (parseObjItems m r4).map
                  (fun p : List (Str × Json) × Str => ((k, v) :: p.1, p.2))
              else if c2 = '}' then some ([(k, v)], r4)
              else none) = some ([(k, v)], rest)
          rw [show renderObjTail [] l ++ (ws1 ++ '}' :: rest) =
              ws1 ++ '}' :: rest by rw [renderObjTail, List.nil_append]]
          rw [skipWs_append _ _ hws1, skipWs_cons_of_not _ _ (by decide)]
          rfl
        | cons kv2 kvs2 =>
          obtain ⟨k2, v2⟩ := kv2
          show (match skipWs (renderObjTail ((k2, v2) :: kvs2) l ++
                (ws1 ++ '}' :: rest)) with
            | [] => none
            | c2 :: r4 =>
              if c2 = ',' then
                (parseObjItems m r4).map
                  (fun p : List (Str × Json) × Str => ((k, v) :: p.1, p.2))
              else if c2 = '}' then some ([(k, v)], r4)
              else none) = some ((k, v) :: (k2, v2) :: kvs2, rest)
          rw [show renderObjTail ((k2, v2) :: kvs2) l ++ (ws1 ++ '}' :: rest) =
              ',' :: ('\n' :: (indentStr l ++ (renderKV (k2, v2) l ++
                (renderObjTail kvs2 l ++ (ws1 ++ '}' :: rest))))) by
            rw [renderObjTail]
            simp only [List.cons_append, List.append_assoc]]
          rw [skipWs_cons_of_not _ _ (by decide)]
          show (parseObjItems m ('\n' :: (indentStr l ++ (renderKV (k2, v2) l ++
              (renderObjTail kvs2 l ++ (ws1 ++ '}' :: rest)))))).map
              (fun p : List (Str × Json) × Str => ((k, v) :: p.1, p.2)) =
            some ((k, v) :: (k2, v2) :: kvs2, rest)
          have hfo2 : fuelKVs ((k2, v2) :: kvs2) ≤ m := by
            simp only [fuelKVs] at hfuel ⊢
            omega
          have hO2 := (ih m (by omega)).2.2 k2 v2 kvs2 l ('\n' :: indentStr l)
            ws1 rest hfo2 (wsOnly_cons_indent l) hws1
          rw [show ('\n' :: (indentStr l ++ (renderKV (k2, v2) l ++
                (renderObjTail kvs2 l ++ (ws1 ++ '}' :: rest))))) =
              ('\n' :: indentStr l) ++ (renderKV (k2, v2) l ++
                (renderObjTail kvs2 l ++ (ws1 ++ '}' :: rest))) from rfl]
          rw [hO2]
          rfl

mutual
theorem fuelFor_le_render (v : Json) (l : Nat) :
    fuelFor v ≤ (renderJson v l).length := by
  cases v with
  | str s =>
    simp only [fuelFor, renderJson, List.length_cons, List.length_append]
    omega
  | num n =>
    obtain ⟨c, t, hct, _⟩ := renderInt_head n
    simp only [fuelFor, renderJson, hct, List.length_cons]
    omega
  | bool b => cases b <;> simp [fuelFor, renderJson, lc]
  | null => simp [fuelFor, renderJson, lc]
  | arr xs =>
    cases xs with
    | nil => simp [fuelFor, fuelItems, renderJson]
    | cons x xs' =>
      have h1 := fuelFor_le_render x (l + 1)
      have h2 := fuelItems_le_render xs' (l + 1)
      simp only [fuelFor, fuelItems, renderJson, List.length_cons,
        List.length_append, List.length_singleton]
      omega
  | obj kvs =>
    cases kvs with
    | nil => simp [fuelFor, fuelKVs, renderJson]
    | cons kv kvs' =>
      obtain ⟨k, v0⟩ := kv
      have h1 := fuelFor_le_render v0 (l + 1)
      have h2 := fuelKVs_le_render kvs' (l + 1)
      simp only [fuelFor, fuelKVs, renderJson, renderKV, List.length_cons,
        List.length_append, List.length_singleton]
      omega

theorem fuelItems_le_render (xs : List Json) (l : Nat) :
    fuelItems xs ≤ (renderArrTail xs l).length + 1 := by
  cases xs with
  | nil => simp [fuelItems, renderArrTail]
  | cons x xs' =>
    have h1 := fuelFor_le_render x l
    have h2 := fuelItems_le_render xs' l
    simp only [fuelItems, renderArrTail, List.length_cons, List.length_append]
    omega

theorem fuelKVs_le_render (kvs : List (Str × Json)) (l : Nat) :
    fuelKVs kvs ≤ (renderObjTail kvs l).length + 1 := by
  cases kvs with
  | nil => simp [fuelKVs, renderObjTail]
  | cons kv kvs' =>
    obtain ⟨k, v0⟩ := kv
    have h1 := fuelFor_le_render v0 l
    have h2 := fuelKVs_le_render kvs' l
    simp only [fuelKVs, renderObjTail, renderKV, List.length_cons, List.length_append]
    omega
end

theorem numStop_nil : numStop [] := by
  intro c t hct
  exact absurd hct (by simp)

theorem parseJson_render (v : Json) : parseJson (renderJson v 0) = some v := by
  have hb : fuelFor v ≤ (renderJson v 0).length + 1 :=
    le_trans (fuelFor_le_render v 0) (by omega)
  have hV := (parse_render_all ((renderJson v 0).length + 1)).1 v 0 [] [] hb
    wsOnly_nil numStop_nil
  rw [List.nil_append, List.append_nil] at hV
  unfold parseJson
  rw [hV]
  rfl

theorem jsonToSub_subToJson (s : SubReq) : jsonToSub (subToJson s) = some s := by
  simp [subToJson, jsonToSub]

theorem seqOpt_subs (subs : List SubReq) :
    seqOpt ((subs.map subToJson).map jsonToSub) = some subs := by
  induction subs with
  | nil => rfl
  | cons s rest ih =>
    rw [List.map_cons, List.map_cons, jsonToSub_subToJson]
    rw [show seqOpt (some s :: (rest.map subToJson).map jsonToSub) =
        (seqOpt ((rest.map subToJson).map jsonToSub)).map (fun l => s :: l)
      from rfl]
    rw [ih]
    rfl

theorem jsonToRes_resToJson (r : DecompResult) : jsonToRes (resToJson r) = some r := by
  obtain ⟨n, subs⟩ := r
  rw [resToJson]
  rw [show jsonToRes (Json.obj [(lc "row_number", Json.num n),
        (lc "decomposed_list", Json.arr (subs.map subToJson))]) =
      (if lc "row_number" = lc "row_number" ∧ lc "decomposed_list" = lc "decomposed_list"
       then (seqOpt ((subs.map subToJson).map jsonToSub)).map
         (fun l => (⟨n, l⟩ : DecompResult))
       else none) from rfl]
  rw [if_pos ⟨rfl, rfl⟩, seqOpt_subs]
  rfl

theorem jsonToResults_resultsToJson (rs : List DecompResult) :
    jsonToResults (resultsToJson rs) = some rs := by
  rw [resultsToJson]
  rw [show jsonToResults (Json.arr (rs.map resToJson)) =
      seqOpt ((rs.map resToJson).map jsonToRes) from rfl]
  induction rs with
  | nil => rfl
  | cons r rest ih =>
    rw [List.map_cons, List.map_cons, jsonToRes_resToJson]
    rw [show seqOpt (some r :: (rest.map resToJson).map jsonToRes) =
        (seqOpt ((rest.map resToJson).map jsonToRes)).map (fun l => r :: l)
      from rfl]
    rw [ih]
    rfl

/-! ### C8 -/

/-- C8: round-trip — writing any list of decomposition-result records with
`save_results_to_json` (`json.dump(results, ensure_ascii=False, indent=2)`)
and then parsing the written file as JSON yields exactly the structure the
original list denotes, and decoding it gives back the original list. -/
theorem save_load_roundtrip :
    ∀ rs : List DecompResult,
      (parseJson (save_results_text rs)).bind jsonToResults = some rs := by
  intro rs
  rw [save_results_text, parseJson_render (resultsToJson rs)]
  rw [show (some (resultsToJson rs)).bind jsonToResults =
      jsonToResults (resultsToJson rs) from rfl]
  exact jsonToResults_resultsToJson rs

end RD
